import Mathlib

/-!
# gorange: ranges and range collections

A shallow embedding of `range.go` and `range_collection.go`, followed by the
properties of the ranges (`NewRange`, `ParseRange`, `Overlap`, `Merge`, `Values`,
`ValuesInRange`) and of `RangeCollection.Merge`.

## Numbers

The bounds of a `Range` are Go `float64` values.  Everything the merging code
does with them is comparison (`==`, `<`, `<=`, `>`, `>=`), `math.Min`,
`math.Max` and the two infinities, so a bound is modelled by its position on the
extended number line, plus the one value that is outside it:

* `F64.fin q` is a finite number (every finite `float64` is a rational; `+0`
  and `-0` compare equal in Go and are the same `fin 0` here);
* `F64.ninf` and `F64.pinf` are `math.Inf(-1)` and `math.Inf(1)`;
* `F64.nan` is a NaN, for which every comparison is false.

## Arithmetic

`Values` and `ValuesInRange` also compute `i++`.  The sum `i + 1` is rounded to a
float64 (`roundFloat64`: round to nearest, ties to even), so that, as in Go, it is
exact for the integers below `2 ^ 53` and leaves `2 ^ 53` as it is.  A number of
the model that rounding leaves as it is, is a float64 (`F64.IsFloat64`); the
bounds of a `Range` of the program always are.

## Loops

The loop `for i := ...; i <= ...; i++` ends or not depending on the bounds, so the
enumerating functions take a bound `steps` on the number of tests `i <= ...` and
return `none` when the loop has not ended by then; the Go function returns the
list `l` when they return `some l` for some `steps`.  The functions passed to
`ValueMap` and `MapValueInRange` are taken as pure.

## Sorting

`sort.Sort` is library code.  It is modelled by the insertion sort that the
library itself runs on short slices (`insertionSort` in package `sort`:
`for i := a + 1; i < b; i++ { for j := i; j > a && data.Less(j, j-1); j-- {
data.Swap(j, j-1) } }`).  When no bound is a NaN, `Less` is a strict total order
on ranges up to `==`, so every correct sort returns the same slice
(`sortSort_sorted`, `sorted_unique`).  `sort.IsSorted` and the loops of
`IsMerged` and `Merge` read neighbours only, so they are recursions on the list.

## Strings

A Go string is the list of its bytes.  `strings.Index`, `strings.Contains` and
`strings.Split` are library code and are modelled by what their documentation
says.  `strconv.ParseFloat` is a parameter of `ParseRange`: the properties hold for
every function in its place, and the examples use `parseDecimal`, which reads
texts of decimal digits.

## Results

`Range.Merge`, `NewRange` and `ParseRange` return the pair `(Range, error)` of the
source, the error being `none` for `nil`: `RangeCollection.Merge` uses the range
and drops the error.

## Callbacks and slices

`EachValue` and `EachValueInRange` call `values` and `valuesInRange` and drop the
list, so all they do is what the calls of `fn` do to the variables `fn` has
captured.  These variables are a state `st` that is passed along: `fn st v` is
the state after the call `fn(v)`.  In `RangeCollection.Values` the state is the
slice `values` and the call appends `v` to it.

A `RangeCollection` is a slice, and a method with a slice as receiver shares the
array of the caller.  `sort.Sort` is the one call that writes to that array
(through `Swap`); `afterMerge` and `afterValues` are the elements the caller
finds in its slice after the call.
-/

namespace Gorange

/-! ## float64 -/

/-- A `float64` value, as far as comparison can tell. -/
inductive F64 where
  | nan
  | ninf
  | fin (q : ℚ)
  | pinf
  deriving DecidableEq, Repr

namespace F64

/-- Go `x <= y` on `float64`. -/
def le : F64 → F64 → Bool
  | nan, _ => false
  | _, nan => false
  | ninf, _ => true
  | _, pinf => true
  | fin a, fin b => decide (a ≤ b)
  | _, _ => false

/-- Go `x < y` on `float64`. -/
def lt : F64 → F64 → Bool
  | nan, _ => false
  | _, nan => false
  | ninf, ninf => false
  | ninf, _ => true
  | pinf, _ => false
  | fin _, pinf => true
  | fin a, fin b => decide (a < b)
  | fin _, ninf => false

/-- Go `x >= y` on `float64`. -/
def ge (x y : F64) : Bool := le y x

/-- Go `x > y` on `float64`. -/
def gt (x y : F64) : Bool := lt y x

/-- Go `x == y` on `float64`. -/
def eq : F64 → F64 → Bool
  | ninf, ninf => true
  | pinf, pinf => true
  | fin a, fin b => decide (a = b)
  | _, _ => false

end F64

/-- The function `math.Min`: negative infinity wins, then NaN, then the smaller argument. -/
def mathMin (x y : F64) : F64 :=
  match x, y with
  | .ninf, _ => .ninf
  | _, .ninf => .ninf
  | .nan, _ => .nan
  | _, .nan => .nan
  | x, y => if x.lt y then x else y

/-- The function `math.Max`: positive infinity wins, then NaN, then the larger argument. -/
def mathMax (x y : F64) : F64 :=
  match x, y with
  | .pinf, _ => .pinf
  | _, .pinf => .pinf
  | .nan, _ => .nan
  | _, .nan => .nan
  | x, y => if x.gt y then x else y

/-! ## Arithmetic of float64 -/

/-- The integer nearest to `x`; of two nearest integers, the even one. -/
def roundHalfEven (x : ℚ) : ℤ :=
  if x - ⌊x⌋ < 1 / 2 then ⌊x⌋
  else if 1 / 2 < x - ⌊x⌋ then ⌊x⌋ + 1
  else if ⌊x⌋ % 2 = 0 then ⌊x⌋
  else ⌊x⌋ + 1

/-- The exponent of the last place of the float64 values around `q`, for `q` not
zero: 52 below the binary exponent of `q`, and -1074 for subnormal values. -/
def ulpExponent (q : ℚ) : ℤ := max (Int.log 2 |q|) (-1022) - 52

/-- The float64 to which the exact result `q` of an operation is rounded (IEEE 754
binary64, round to nearest, ties to even): the nearest multiple of the unit in the
last place, and an infinity from `2 ^ 1024` on. -/
def roundFloat64 (q : ℚ) : F64 :=
  if q = 0 then .fin 0
  else
    let r : ℚ := roundHalfEven (q / 2 ^ ulpExponent q) * 2 ^ ulpExponent q
    if (2 : ℚ) ^ (1024 : ℕ) ≤ |r| then (if 0 < q then .pinf else .ninf) else .fin r

/-- Go `i++` on a float64, which is `i += 1`: a NaN and the infinities stay as
they are. -/
def F64.inc : F64 → F64
  | .fin q => roundFloat64 (q + 1)
  | x => x

/-- The value is a float64: a NaN, an infinity, or a number that rounding leaves
as it is. -/
def F64.IsFloat64 : F64 → Prop
  | .fin q => roundFloat64 q = .fin q
  | _ => True

/-! ## Strings and `strconv` -/

/-- A Go string, as the sequence of its bytes. -/
abbrev GoString := List UInt8

/-- The bytes of a text of ASCII characters, for writing sample texts. -/
def ascii (s : String) : GoString := s.toList.map (fun c => UInt8.ofNat c.toNat)

/-- The call `strings.Index(s, substr)`: the index of the first instance of
`substr` in `s`, or -1. -/
def stringsIndex : GoString → GoString → Int
  | [], substr => if substr.isPrefixOf [] then 0 else -1
  | c :: s, substr =>
    if substr.isPrefixOf (c :: s) then 0
    else
      let i := stringsIndex s substr
      if i < 0 then -1 else i + 1

/-- The call `strings.Contains(s, substr)`, which is `Index(s, substr) >= 0`. -/
def stringsContains (s substr : GoString) : Bool :=
  decide (0 ≤ stringsIndex s substr)

/-- The loop of `strings.Split` for a separator that is not empty: cut at the
first instance of `sep`, go on behind it.  Each cut removes a byte at least, so
as many rounds as `s` has bytes are enough. -/
def splitLoop (sep : GoString) : Nat → GoString → List GoString
  | 0, s => [s]
  | rounds + 1, s =>
    let m := stringsIndex s sep
    if m < 0 then [s]
    else s.take m.toNat :: splitLoop sep rounds (s.drop (m.toNat + sep.length))

/-- The call `strings.Split(s, sep)`.  For the empty separator Go cuts after each
UTF-8 sequence, here after each byte; `ParseRange` does not get there. -/
def stringsSplit (s sep : GoString) : List GoString :=
  if sep = [] then s.map (fun c => [c]) else splitLoop sep s.length s

/-- The error of `strconv.ParseFloat`. -/
inductive NumError where
  /-- The text is not a number (`strconv.ErrSyntax`). -/
  | badText
  /-- The number is too large (`strconv.ErrRange`). -/
  | outOfRange
  deriving DecidableEq, Repr

/-! ## range.go -/

/-- The struct `Range`. -/
structure Range where
  Start : F64
  End : F64
  deriving DecidableEq, Repr

/-- The errors built by `errors.New` in `range.go`, by the place that builds them. -/
inductive GoError where
  /-- Message "Range %v does not overlap range %v". -/
  | doesNotOverlap (r other : Range)
  /-- Message "Start: %f is after End: %f". -/
  | startAfterEnd (start stop : F64)
  /-- Message "Error parsing range (%s) with delimiter (%s): %v", of `parsingError`;
  the last argument is `none` for a nil error. -/
  | parsing (srange delimiter : GoString) (err : Option NumError)
  deriving DecidableEq, Repr

namespace Range

/-- Method `func (r Range) Equal(other Range) bool`. -/
def Equal (r other : Range) : Bool :=
  r.Start.eq other.Start && r.End.eq other.End

/-- Method `func (r Range) Overlap(other Range) bool`: both disjuncts of the source
are kept. -/
def Overlap (r other : Range) : Bool :=
  r.End.ge other.Start || other.Start.le r.End

/-- Method `func (r Range) Infinite() bool`. -/
def Infinite (r : Range) : Bool :=
  r.Start.eq .ninf && r.End.eq .pinf

/-- Method `func (r Range) Contains(float float64) bool`. -/
def Contains (r : Range) (float : F64) : Bool :=
  float.ge r.Start && float.le r.End

end Range

/-- Function `func NewRange(start float64, end float64) (Range, error)`; the range returned
with an error is the zero value `Range{}`. -/
def NewRange (start stop : F64) : Range × Option GoError :=
  if start.gt stop then
    (⟨.fin 0, .fin 0⟩, some (.startAfterEnd start stop))
  else
    (⟨start, stop⟩, none)

/-- Method `func (r Range) Merge(other Range) (Range, error)`; on either error the
receiver is returned next to it. -/
def Range.Merge (r other : Range) : Range × Option GoError :=
  if !r.Overlap other then
    (r, some (.doesNotOverlap r other))
  else
    match NewRange (mathMin r.Start other.Start) (mathMax r.End other.End) with
    | (_, some err) => (r, some err)
    | (newRange, none) => (newRange, none)

/-! ### Enumeration -/

/-- The loop `for i := start; i <= stop; i++ { values = append(values, fn(i)) }`
of `values` and `valuesInRange`, starting at `i`; `none` when it has not ended
after `steps` tests of `i <= stop`. -/
def valuesLoop (fn : F64 → F64) (stop : F64) : Nat → F64 → Option (List F64)
  | 0, _ => none
  | steps + 1, i =>
    if i.le stop then (valuesLoop fn stop steps i.inc).map (fun rest => fn i :: rest)
    else some []

namespace Range

/-- Method `func (r Range) values(fn func(float64) float64) []float64`, with the
bound `steps` on the loop. -/
def values (steps : Nat) (r : Range) (fn : F64 → F64) : Option (List F64) :=
  if r.Start.eq .ninf then
    some [fn .ninf, fn r.End]
  else if r.End.eq .pinf then
    some [fn r.Start, fn .pinf]
  else
    valuesLoop fn r.End steps r.Start

/-- Method `func (r Range) Values() []float64`. -/
def Values (steps : Nat) (r : Range) : Option (List F64) :=
  r.values steps (fun v => v)

/-- Method `func (r Range) ValueMap(fn func(float64) float64) []float64`. -/
def ValueMap (steps : Nat) (r : Range) (fn : F64 → F64) : Option (List F64) :=
  r.values steps fn

/-- Method `func (r Range) valuesInRange(other Range, fn func(float64) float64)
[]float64`, with the bound `steps` on the loops. -/
def valuesInRange (steps : Nat) (r other : Range) (fn : F64 → F64) : Option (List F64) :=
  if !r.Overlap other then
    some []
  else if other.Infinite && r.Infinite then
    some [fn .ninf, fn .pinf]
  else if other.Infinite then
    r.values steps fn
  else if other.Start.eq .ninf then
    if r.Start.eq .ninf then
      some [fn .ninf, fn (mathMin other.End r.End)]
    else
      valuesLoop fn (mathMin other.End r.End) steps r.Start
  else if other.End.eq .pinf then
    if r.End.eq .pinf then
      some [fn (mathMax other.Start r.Start), fn .pinf]
    else
      valuesLoop fn r.End steps (mathMax other.Start r.Start)
  else
    valuesLoop fn (mathMin other.End r.End) steps (mathMax other.Start r.Start)

/-- Method `func (r Range) ValuesInRange(other Range) []float64`. -/
def ValuesInRange (steps : Nat) (r other : Range) : Option (List F64) :=
  r.valuesInRange steps other (fun v => v)

/-- Method `func (r Range) MapValueInRange(other Range, fn func(float64) float64)
[]float64`. -/
def MapValueInRange (steps : Nat) (r other : Range) (fn : F64 → F64) : Option (List F64) :=
  r.valuesInRange steps other fn

end Range

/-- The loop of `values` and `valuesInRange` when the list it builds is dropped, as
`EachValue` and `EachValueInRange` do: what remains of the calls `fn(i)` is what
they do to the variables that `fn` has captured.  These variables are the state
`st`, and `fn st i` is the state after the call `fn(i)`. -/
def eachLoop {σ : Type} (fn : σ → F64 → σ) (stop : F64) : Nat → F64 → σ → Option σ
  | 0, _, _ => none
  | steps + 1, i, st =>
    if i.le stop then eachLoop fn stop steps i.inc (fn st i) else some st

/-- Method `func (r Range) EachValue(fn func(float64) float64)`, which is
`r.values(fn)` without its result. -/
def Range.EachValue {σ : Type} (steps : Nat) (r : Range) (fn : σ → F64 → σ) (st : σ) :
    Option σ :=
  if r.Start.eq .ninf then
    some (fn (fn st .ninf) r.End)
  else if r.End.eq .pinf then
    some (fn (fn st r.Start) .pinf)
  else
    eachLoop fn r.End steps r.Start st

/-- Method `func (r Range) EachValueInRange(other Range, fn func(float64) float64)`,
which is `r.valuesInRange(other, fn)` without its result. -/
def Range.EachValueInRange {σ : Type} (steps : Nat) (r other : Range) (fn : σ → F64 → σ)
    (st : σ) : Option σ :=
  if !r.Overlap other then
    some st
  else if other.Infinite && r.Infinite then
    some (fn (fn st .ninf) .pinf)
  else if other.Infinite then
    r.EachValue steps fn st
  else if other.Start.eq .ninf then
    if r.Start.eq .ninf then
      some (fn (fn st .ninf) (mathMin other.End r.End))
    else
      eachLoop fn (mathMin other.End r.End) steps r.Start st
  else if other.End.eq .pinf then
    if r.End.eq .pinf then
      some (fn (fn st (mathMax other.Start r.Start)) .pinf)
    else
      eachLoop fn r.End steps (mathMax other.Start r.Start) st
  else
    eachLoop fn (mathMin other.End r.End) steps (mathMax other.Start r.Start) st

/-! ### Parsing -/

/-- Function `func ParseRange(srange string, delimiter string) (Range, error)`, with
`strconv.ParseFloat(_, 64)` as the parameter `parseFloat` (the value and the
error it returns).  In the default case the error of the first `ParseFloat` is
overwritten by the second, as in the source: only the value of the first is
kept.  Where the source returns `prange, err` on an error of `NewRange` and
`prange, nil` otherwise, that is the pair `NewRange` returned. -/
def ParseRange (parseFloat : GoString → F64 × Option NumError)
    (srange delimiter : GoString) : Range × Option GoError :=
  let prange : Range := ⟨.fin 0, .fin 0⟩
  if stringsContains srange delimiter then
    let index := stringsIndex srange delimiter
    if srange = delimiter then
      (⟨.ninf, .pinf⟩, none)
    else if index = 0 then
      match parseFloat (srange.drop 1) with
      | (_, some err) => (prange, some (.parsing srange delimiter (some err)))
      | (float, none) => NewRange .ninf float
    else if index = (srange.length : Int) - 1 then
      match parseFloat (srange.take (srange.length - 1)) with
      | (_, some err) => (prange, some (.parsing srange delimiter (some err)))
      | (float, none) => NewRange float .pinf
    else
      let ends := stringsSplit srange delimiter
      if ends.length ≠ 2 then
        (prange, some (.parsing srange delimiter none))
      else
        let start := (parseFloat (ends.getD 0 [])).1
        match parseFloat (ends.getD 1 []) with
        | (_, some err) => (prange, some (.parsing srange delimiter (some err)))
        | (stop, none) => NewRange start stop
  else
    match parseFloat srange with
    | (_, some err) => (prange, some (.parsing srange delimiter (some err)))
    | (float, none) => ((NewRange float float).1, none)

/-! ## range_collection.go -/

/-- The type `type RangeCollection []Range`. -/
abbrev RangeCollection := List Range

/-- The comparison of `RangeCollection.Less` on two elements. -/
def Range.less (a b : Range) : Bool :=
  if a.Start.eq b.Start then a.End.lt b.End else a.Start.lt b.Start

/-- Insertion of `x` into the already sorted slice before it, which is given
last element first: `x` is swapped leftwards while it is `Less` than its left
neighbour. -/
def insertLeftwards (x : Range) : List Range → List Range
  | [] => [x]
  | y :: ys => if x.less y then y :: insertLeftwards x ys else x :: y :: ys

/-- The call `sort.Sort(collection)`, as the insertion sort of package `sort`. -/
def sortSort (collection : RangeCollection) : RangeCollection :=
  (collection.foldl (fun sortedRev x => insertLeftwards x sortedRev) []).reverse

/-- The call `sort.IsSorted(collection)`: no element is `Less` than the one before it. -/
def sortIsSorted : RangeCollection → Bool
  | a :: b :: rest => !b.less a && sortIsSorted (b :: rest)
  | _ => true

/-- The loop of `IsMerged`: no element overlaps the next one. -/
def noNeighbourOverlap : RangeCollection → Bool
  | a :: b :: rest => !a.Overlap b && noNeighbourOverlap (b :: rest)
  | _ => true

/-- The loop of `RangeCollection.Merge` from index `i` on, where `rest` is
`collection[i:]`. -/
def mergeLoop (newCollection : RangeCollection) (currentRange : Range) :
    List Range → RangeCollection
  | [] => newCollection ++ [currentRange]
  | x :: rest =>
    if currentRange.Overlap x then
      let merged := (currentRange.Merge x).1
      if merged.End.eq .pinf then
        newCollection ++ [merged]
      else
        mergeLoop newCollection merged rest
    else
      mergeLoop (newCollection ++ [currentRange]) x rest

/-- The body of `RangeCollection.Merge` after `sort.Sort(collection)`, on the
sorted slice (which is not empty there). -/
def mergeSorted : RangeCollection → RangeCollection
  | [] => []
  | currentRange :: rest =>
    if currentRange.End.eq .pinf then
      [currentRange]
    else
      mergeLoop [] currentRange rest

namespace RangeCollection

/-- Method `func (collection RangeCollection) Less(i, j int) bool`; an index out
of range, a panic in Go, gives `false` here. -/
def Less (collection : RangeCollection) (i j : Nat) : Bool :=
  match collection.get? i, collection.get? j with
  | some a, some b => a.less b
  | _, _ => false

/-- Method `func (collection RangeCollection) IsMerged() bool`. -/
def IsMerged (collection : RangeCollection) : Bool :=
  if !sortIsSorted collection then false else noNeighbourOverlap collection

/-- Method `func (collection RangeCollection) Merge() RangeCollection`. -/
def Merge (collection : RangeCollection) : RangeCollection :=
  if collection.length = 0 then
    collection
  else if collection.IsMerged then
    collection
  else
    mergeSorted (sortSort collection)

end RangeCollection

/-- The loop `for _, grange := range collection` of `RangeCollection.Values`: each
range appends its values to `values` through `EachValue`. -/
def collectValues (steps : Nat) : List Range → List F64 → Option (List F64)
  | [], values => some values
  | grange :: rest, values =>
    match grange.EachValue steps (fun values value => values ++ [value]) values with
    | none => none
    | some values => collectValues steps rest values

/-- The loop `for _, grange := range collection` of `RangeCollection.ValuesInRange`. -/
def collectValuesInRange (steps : Nat) (r : Range) : List Range → List F64 → Option (List F64)
  | [], values => some values
  | grange :: rest, values =>
    match grange.EachValueInRange steps r (fun values value => values ++ [value]) values with
    | none => none
    | some values => collectValuesInRange steps r rest values

/-- Method `func (collection RangeCollection) Values() []float64`. -/
def RangeCollection.Values (steps : Nat) (collection : RangeCollection) : Option (List F64) :=
  let collection := if !collection.IsMerged then collection.Merge else collection
  collectValues steps collection []

/-- Method `func (collection RangeCollection) ValuesInRange(r Range) []float64`. -/
def RangeCollection.ValuesInRange (steps : Nat) (collection : RangeCollection) (r : Range) :
    Option (List F64) :=
  let collection := if !collection.IsMerged then collection.Merge else collection
  collectValuesInRange steps r collection []

/-- The elements of the slice on which `Merge` was called, after the call.  The
receiver shares its array with the slice of the caller, and
`sort.Sort(collection)` sorts that array in place through `Swap`; nothing else in
`Merge` writes to it (`newCollection` is a new slice). -/
def RangeCollection.afterMerge (collection : RangeCollection) : RangeCollection :=
  if collection.length = 0 then
    collection
  else if collection.IsMerged then
    collection
  else
    sortSort collection

/-- The elements of the slice on which `Values` or `ValuesInRange` was called, after
the call: both call `collection.Merge()` when `IsMerged` is false and write to
the slice nowhere else. -/
def RangeCollection.afterValues (collection : RangeCollection) : RangeCollection :=
  if !collection.IsMerged then collection.afterMerge else collection

/-- The loop of `ParseRangeCollection` over the texts that are left. -/
def parseCollectionLoop (parseFloat : GoString → F64 × Option NumError)
    (delimiter : GoString) (rcollection : RangeCollection) :
    List GoString → RangeCollection × Option GoError
  | [] => (rcollection, none)
  | srange :: rest =>
    match ParseRange parseFloat srange delimiter with
    | (_, some err) => (rcollection, some err)
    | (grange, none) => parseCollectionLoop parseFloat delimiter (rcollection ++ [grange]) rest

/-- Function `func ParseRangeCollection(collection []string, delimiter string)
(RangeCollection, error)`. -/
def ParseRangeCollection (parseFloat : GoString → F64 × Option NumError)
    (collection : List GoString) (delimiter : GoString) : RangeCollection × Option GoError :=
  parseCollectionLoop parseFloat delimiter [] collection

/-! ## Predicates and sample data of the properties -/

/-- Neither bound of the range is a NaN. -/
def Range.NoNaN (r : Range) : Prop := r.Start ≠ .nan ∧ r.End ≠ .nan

/-- The range `a` is `b` or is `Less` than `b`. -/
def Range.rle (a b : Range) : Prop := a = b ∨ a.less b = true

/-- What `IsMerged` asks of two neighbours: the second is not `Less` than the
first, and the first does not `Overlap` the second. -/
def Range.Sep (a b : Range) : Prop := b.less a = false ∧ a.Overlap b = false

/-- The collection of `TestMergeInfiniteEndingRangeCollection`: "1:5", "7:", "4:6". -/
def sampleCollection : RangeCollection :=
  [⟨.fin 1, .fin 5⟩, ⟨.fin 7, .pinf⟩, ⟨.fin 4, .fin 6⟩]

/-- A sample of `strconv.ParseFloat` for the concrete texts of the examples: a text
of decimal digits is the number it spells, any other text is rejected with the
value 0. -/
def parseDecimal (s : GoString) : F64 × Option NumError :=
  if s ≠ [] ∧ s.all (fun c => decide (48 ≤ c ∧ c ≤ 57)) = true then
    (.fin ((s.foldl (fun n c => n * 10 + (c.toNat - 48)) 0 : ℕ) : ℚ), none)
  else
    (.fin 0, some .badText)

/-- The concatenation, in order, of the lists that `f` returns for the ranges of a
collection; there is none when `f` does not return for one of them. -/
def concatOver (f : Range → Option (List F64)) : List Range → Option (List F64)
  | [] => some []
  | r :: rest =>
    match f r, concatOver f rest with
    | some a, some b => some (a ++ b)
    | _, _ => none

/-- The clamped window of two ranges: from the larger of the two starts to the
smaller of the two ends. -/
def clampedWindow (r other : Range) : Range :=
  ⟨if r.Start.le other.Start then other.Start else r.Start,
    if r.End.le other.End then r.End else other.End⟩

/-! ## Comparison of bounds -/

theorem f64_le_ne_nan {x y : F64} (h : x.le y = true) : x ≠ .nan ∧ y ≠ .nan := by
  cases x <;> cases y <;> simp_all [F64.le]

theorem f64_lt_ne_nan {x y : F64} (h : x.lt y = true) : x ≠ .nan ∧ y ≠ .nan := by
  cases x <;> cases y <;> simp_all [F64.lt]

theorem f64_le_refl {x : F64} (h : x ≠ .nan) : x.le x = true := by
  cases x <;> simp_all [F64.le]

theorem f64_le_trans {x y z : F64} (h₁ : x.le y = true) (h₂ : y.le z = true) :
    x.le z = true := by
  cases x <;> cases y <;> cases z <;> simp_all [F64.le]
  exact h₁.trans h₂

theorem f64_lt_of_lt_of_le {x y z : F64} (h₁ : x.lt y = true) (h₂ : y.le z = true) :
    x.lt z = true := by
  cases x <;> cases y <;> cases z <;> simp_all [F64.le, F64.lt]
  exact h₁.trans_le h₂

theorem f64_lt_of_le_of_lt {x y z : F64} (h₁ : x.le y = true) (h₂ : y.lt z = true) :
    x.lt z = true := by
  cases x <;> cases y <;> cases z <;> simp_all [F64.le, F64.lt]
  exact h₁.trans_lt h₂

theorem f64_le_of_lt {x y : F64} (h : x.lt y = true) : x.le y = true := by
  cases x <;> cases y <;> simp_all [F64.le, F64.lt]
  exact h.le

theorem f64_lt_of_not_le {x y : F64} (hx : x ≠ .nan) (hy : y ≠ .nan) (h : x.le y = false) :
    y.lt x = true := by
  cases x <;> cases y <;> simp_all [F64.le, F64.lt]

theorem f64_le_of_not_lt {x y : F64} (hx : x ≠ .nan) (hy : y ≠ .nan) (h : x.lt y = false) :
    y.le x = true := by
  cases x <;> cases y <;> simp_all [F64.le, F64.lt]

theorem f64_not_le_of_lt {x y : F64} (h : x.lt y = true) : y.le x = false := by
  cases x <;> cases y <;> simp_all [F64.le, F64.lt]

theorem f64_not_lt_of_le {x y : F64} (h : x.le y = true) : y.lt x = false := by
  cases x <;> cases y <;> simp_all [F64.le, F64.lt]

theorem f64_le_antisymm {x y : F64} (h₁ : x.le y = true) (h₂ : y.le x = true) : x = y := by
  cases x <;> cases y <;> simp_all [F64.le]
  exact le_antisymm h₁ h₂

theorem f64_eq_iff {x y : F64} : x.eq y = true ↔ x = y ∧ x ≠ .nan := by
  cases x <;> cases y <;> simp [F64.eq]

theorem f64_eq_false_of_ne {x y : F64} (h : x ≠ y) : x.eq y = false := by
  cases hxy : x.eq y
  · rfl
  · exact absurd (f64_eq_iff.mp hxy).1 h

theorem f64_le_pinf {x : F64} (h : x ≠ .nan) : x.le .pinf = true := by
  cases x <;> simp_all [F64.le]

theorem f64_lt_irrefl (x : F64) : x.lt x = false := by
  cases x <;> simp [F64.lt]

theorem f64_lt_or_eq_of_le {x y : F64} (h : x.le y = true) : x.lt y = true ∨ x = y := by
  cases x <;> cases y <;> simp_all [F64.le, F64.lt]
  exact lt_or_eq_of_le h

/-! ## `math.Min` and `math.Max` -/

theorem mathMin_comm (x y : F64) : mathMin x y = mathMin y x := by
  cases x <;> cases y <;> simp [mathMin, F64.lt]
  rename_i a b
  rcases lt_trichotomy a b with h | h | h
  · simp [h, not_lt.mpr h.le]
  · simp [h]
  · simp [h, not_lt.mpr h.le]

theorem mathMax_comm (x y : F64) : mathMax x y = mathMax y x := by
  cases x <;> cases y <;> simp [mathMax, F64.gt, F64.lt]
  rename_i a b
  rcases lt_trichotomy a b with h | h | h
  · simp [h, not_lt.mpr h.le]
  · simp [h]
  · simp [h, not_lt.mpr h.le]

theorem mathMin_of_le {x y : F64} (h : x.le y = true) : mathMin x y = x := by
  cases x <;> cases y <;> simp_all [mathMin, F64.le, F64.lt]
  intro h'
  exact le_antisymm h' h

theorem mathMin_of_lt {x y : F64} (h : y.lt x = true) : mathMin x y = y := by
  cases x <;> cases y <;> simp_all [mathMin, F64.lt]
  intro h'
  exact absurd h (not_lt.mpr h'.le)

theorem mathMax_of_le {x y : F64} (h : x.le y = true) : mathMax x y = y := by
  cases x <;> cases y <;> simp_all [mathMax, F64.le, F64.gt, F64.lt]

theorem mathMax_of_lt {x y : F64} (h : y.lt x = true) : mathMax x y = x := by
  cases x <;> cases y <;> simp_all [mathMax, F64.gt, F64.lt]

theorem mathMin_fin (a b : ℚ) : mathMin (.fin a) (.fin b) = .fin (min a b) := by
  rcases lt_or_le a b with h | h
  · simp [mathMin, F64.lt, h, min_eq_left h.le]
  · simp [mathMin, F64.lt, not_lt.mpr h, min_eq_right h]

theorem mathMax_fin (a b : ℚ) : mathMax (.fin a) (.fin b) = .fin (max a b) := by
  rcases lt_or_le b a with h | h
  · simp [mathMax, F64.gt, F64.lt, h, max_eq_left h.le]
  · simp [mathMax, F64.gt, F64.lt, not_lt.mpr h, max_eq_right h]

theorem mathMin_ninf_left (x : F64) : mathMin .ninf x = .ninf := by
  cases x <;> simp [mathMin]

theorem mathMin_ninf_right (x : F64) : mathMin x .ninf = .ninf := by
  cases x <;> simp [mathMin]

theorem mathMin_nan_left {x : F64} (h : x ≠ .ninf) : mathMin .nan x = .nan := by
  cases x <;> simp_all [mathMin]

theorem mathMin_nan_right {x : F64} (h : x ≠ .ninf) : mathMin x .nan = .nan := by
  cases x <;> simp_all [mathMin]

theorem mathMin_pinf_left {x : F64} : mathMin .pinf x = x := by
  cases x <;> simp [mathMin, F64.lt]

theorem mathMin_pinf_right {x : F64} : mathMin x .pinf = x := by
  cases x <;> simp [mathMin, F64.lt]

theorem mathMax_pinf_left (x : F64) : mathMax .pinf x = .pinf := by
  cases x <;> simp [mathMax]

theorem mathMax_pinf_right (x : F64) : mathMax x .pinf = .pinf := by
  cases x <;> simp [mathMax]

theorem mathMax_nan_left {x : F64} (h : x ≠ .pinf) : mathMax .nan x = .nan := by
  cases x <;> simp_all [mathMax]

theorem mathMax_nan_right {x : F64} (h : x ≠ .pinf) : mathMax x .nan = .nan := by
  cases x <;> simp_all [mathMax]

theorem mathMax_ninf_left {x : F64} : mathMax .ninf x = x := by
  cases x <;> simp [mathMax, F64.gt, F64.lt]

theorem mathMax_ninf_right {x : F64} : mathMax x .ninf = x := by
  cases x <;> simp [mathMax, F64.gt, F64.lt]

theorem mathMin_assoc (x y z : F64) : mathMin (mathMin x y) z = mathMin x (mathMin y z) := by
  cases x <;> cases y <;> cases z <;>
    simp [mathMin_fin, min_assoc, mathMin_ninf_left, mathMin_ninf_right, mathMin_nan_left,
      mathMin_nan_right, mathMin_pinf_left, mathMin_pinf_right]

theorem mathMax_assoc (x y z : F64) : mathMax (mathMax x y) z = mathMax x (mathMax y z) := by
  cases x <;> cases y <;> cases z <;>
    simp [mathMax_fin, max_assoc, mathMax_ninf_left, mathMax_ninf_right, mathMax_nan_left,
      mathMax_nan_right, mathMax_pinf_left, mathMax_pinf_right]

/-! ## `Range.Overlap`, `Range.Contains`, `Range.Merge` -/

theorem overlap_eq (r other : Range) : r.Overlap other = other.Start.le r.End := by
  simp [Range.Overlap, F64.ge]

theorem contains_iff (r : Range) (v : F64) :
    r.Contains v = true ↔ r.Start.le v = true ∧ v.le r.End = true := by
  simp [Range.Contains, F64.ge]

theorem mathMin_le_left {x y : F64} (hx : x ≠ .nan) (hy : y ≠ .nan) :
    (mathMin x y).le x = true := by
  cases x <;> cases y <;> simp_all [mathMin, F64.le, F64.lt]
  split_ifs with h' <;> simp_all [F64.le]

theorem mathMin_le_right {x y : F64} (hx : x ≠ .nan) (hy : y ≠ .nan) :
    (mathMin x y).le y = true := by
  rw [mathMin_comm]
  exact mathMin_le_left hy hx

theorem le_mathMax_left {x y : F64} (hx : x ≠ .nan) (hy : y ≠ .nan) :
    x.le (mathMax x y) = true := by
  cases x <;> cases y <;> simp_all [mathMax, F64.le, F64.lt, F64.gt]
  split_ifs with h' <;> simp_all [F64.le]

theorem le_mathMax_right {x y : F64} (hx : x ≠ .nan) (hy : y ≠ .nan) :
    y.le (mathMax x y) = true := by
  rw [mathMax_comm]
  exact le_mathMax_left hy hx

theorem mathMin_ne_nan {x y : F64} (hx : x ≠ .nan) (hy : y ≠ .nan) : mathMin x y ≠ .nan :=
  (f64_le_ne_nan (mathMin_le_left hx hy)).1

theorem mathMax_ne_nan {x y : F64} (hx : x ≠ .nan) (hy : y ≠ .nan) : mathMax x y ≠ .nan :=
  (f64_le_ne_nan (le_mathMax_left hx hy)).2

theorem hull_not_inverted {s₁ e₁ s₂ e₂ : F64} (h : s₂.le e₁ = true) :
    (mathMax e₁ e₂).lt (mathMin s₁ s₂) = false := by
  have hs := (f64_le_ne_nan h).1
  have he := (f64_le_ne_nan h).2
  cases hlt : (mathMax e₁ e₂).lt (mathMin s₁ s₂)
  · rfl
  · exfalso
    have hn := f64_lt_ne_nan hlt
    have h1 : (mathMin s₁ s₂).le s₂ = true := by
      cases s₁ <;> cases s₂ <;> simp_all [mathMin, F64.le, F64.lt]
      split_ifs with h' <;> simp_all [F64.le]
      exact h'.le
    have h2 : e₁.le (mathMax e₁ e₂) = true := by
      cases e₁ <;> cases e₂ <;> simp_all [mathMax, F64.le, F64.lt, F64.gt]
      split_ifs with h' <;> simp_all [F64.le]
    have h3 := f64_le_trans (f64_le_trans h1 h) h2
    rw [f64_not_lt_of_le h3] at hlt
    exact Bool.noConfusion hlt

theorem range_merge_of_overlap {r other : Range} (h : r.Overlap other = true) :
    r.Merge other = (⟨mathMin r.Start other.Start, mathMax r.End other.End⟩, none) := by
  have h' : other.Start.le r.End = true := by rwa [overlap_eq] at h
  simp [Range.Merge, h, NewRange, F64.gt, hull_not_inverted h']

theorem range_merge_of_not_overlap {r other : Range} (h : r.Overlap other = false) :
    r.Merge other = (r, some (.doesNotOverlap r other)) := by
  simp [Range.Merge, h]

/-! ## The order of `Less` -/

theorem noNaN_of_valid {r : Range} (h : r.Start.le r.End = true) : r.NoNaN :=
  f64_le_ne_nan h

theorem less_irrefl (a : Range) : a.less a = false := by
  unfold Range.less
  split_ifs <;> exact f64_lt_irrefl _

theorem less_start_le {a b : Range} (h : a.less b = true) : a.Start.le b.Start = true := by
  unfold Range.less at h
  split_ifs at h with he
  · have := f64_eq_iff.mp he
    rw [← this.1]
    exact f64_le_refl this.2
  · exact f64_le_of_lt h

theorem less_asymm {a b : Range} (h : a.less b = true) : b.less a = false := by
  unfold Range.less at h ⊢
  split_ifs at h with he
  · have hab := f64_eq_iff.mp he
    have hba : b.Start.eq a.Start = true := f64_eq_iff.mpr ⟨hab.1.symm, hab.1 ▸ hab.2⟩
    rw [if_pos hba]
    exact f64_not_lt_of_le (f64_le_of_lt h)
  · have hba : b.Start.eq a.Start = false := by
      cases hq : b.Start.eq a.Start
      · rfl
      · have := f64_eq_iff.mp hq
        rw [this.1, f64_lt_irrefl] at h
        exact Bool.noConfusion h
    simp only [hba, Bool.false_eq_true, if_false]
    exact f64_not_lt_of_le (f64_le_of_lt h)

theorem less_of_start_lt {a b : Range} (h : a.Start.lt b.Start = true) : a.less b = true := by
  unfold Range.less
  split_ifs with he
  · have := f64_eq_iff.mp he
    rw [this.1, f64_lt_irrefl] at h
    exact Bool.noConfusion h
  · exact h

theorem less_trans {a b c : Range} (h₁ : a.less b = true) (h₂ : b.less c = true) :
    a.less c = true := by
  have hab := less_start_le h₁
  have hbc := less_start_le h₂
  rcases f64_lt_or_eq_of_le hab with h | h
  · exact less_of_start_lt (f64_lt_of_lt_of_le h hbc)
  · rcases f64_lt_or_eq_of_le hbc with h' | h'
    · exact less_of_start_lt (f64_lt_of_le_of_lt hab h')
    · have hn := (f64_le_ne_nan hab).1
      have e1 : a.Start.eq b.Start = true := f64_eq_iff.mpr ⟨h, hn⟩
      have e2 : b.Start.eq c.Start = true := f64_eq_iff.mpr ⟨h', h ▸ hn⟩
      have e3 : a.Start.eq c.Start = true := f64_eq_iff.mpr ⟨h.trans h', hn⟩
      unfold Range.less at h₁ h₂ ⊢
      rw [if_pos e1] at h₁
      rw [if_pos e2] at h₂
      rw [if_pos e3]
      exact f64_lt_of_lt_of_le h₁ (f64_le_of_lt h₂)

theorem rle_of_not_less {a b : Range} (ha : a.NoNaN) (hb : b.NoNaN)
    (h : b.less a = false) : a.rle b := by
  obtain ⟨as, ae⟩ := a
  obtain ⟨bs, be⟩ := b
  obtain ⟨has, hae⟩ := ha
  obtain ⟨hbs, hbe⟩ := hb
  simp only at has hae hbs hbe
  unfold Range.rle
  unfold Range.less at h ⊢
  simp only at h ⊢
  by_cases he : bs.eq as = true
  · have hse := (f64_eq_iff.mp he).1
    subst hse
    rw [if_pos he] at h
    rw [if_pos he]
    rcases f64_lt_or_eq_of_le (f64_le_of_not_lt hbe hae h) with h' | h'
    · exact Or.inr h'
    · exact Or.inl (by rw [h'])
  · rw [if_neg he] at h
    have hne : as.eq bs = true → False := fun h' =>
      he (f64_eq_iff.mpr ⟨(f64_eq_iff.mp h').1.symm, hbs⟩)
    rw [if_neg hne]
    rcases f64_lt_or_eq_of_le (f64_le_of_not_lt hbs has h) with h' | h'
    · exact Or.inr h'
    · exact absurd (f64_eq_iff.mpr ⟨h'.symm, hbs⟩) he

theorem not_less_of_rle {a b : Range} (h : a.rle b) : b.less a = false := by
  rcases h with h | h
  · rw [h]; exact less_irrefl b
  · exact less_asymm h

theorem rle_trans {a b c : Range} (h₁ : a.rle b) (h₂ : b.rle c) : a.rle c := by
  rcases h₁ with h₁ | h₁
  · rw [h₁]; exact h₂
  · rcases h₂ with h₂ | h₂
    · rw [← h₂]; exact Or.inr h₁
    · exact Or.inr (less_trans h₁ h₂)

theorem rle_antisymm {a b : Range} (h₁ : a.rle b) (h₂ : b.rle a) : a = b := by
  rcases h₁ with h₁ | h₁
  · exact h₁
  · have := not_less_of_rle h₂
    rw [h₁] at this
    exact Bool.noConfusion this

theorem rle_start_le {a b : Range} (ha : a.NoNaN) (h : a.rle b) :
    a.Start.le b.Start = true := by
  rcases h with h | h
  · rw [← h]; exact f64_le_refl ha.1
  · exact less_start_le h

/-! ## `sort.Sort` and `sort.IsSorted` -/

theorem insertLeftwards_perm (x : Range) (l : List Range) :
    (insertLeftwards x l).Perm (x :: l) := by
  induction l with
  | nil => exact List.Perm.refl _
  | cons y ys ih =>
    unfold insertLeftwards
    split_ifs
    · exact (List.Perm.cons y ih).trans (List.Perm.swap x y ys)
    · exact List.Perm.refl _

theorem foldl_insertLeftwards_perm (c acc : List Range) :
    (c.foldl (fun sortedRev x => insertLeftwards x sortedRev) acc).Perm (c ++ acc) := by
  induction c generalizing acc with
  | nil => exact List.Perm.refl _
  | cons x xs ih =>
    simp only [List.foldl_cons, List.cons_append]
    refine (ih _).trans ?_
    refine (List.Perm.append_left xs (insertLeftwards_perm x acc)).trans ?_
    exact List.perm_middle

theorem sortSort_perm (c : RangeCollection) : (sortSort c).Perm c := by
  unfold sortSort
  refine (List.reverse_perm _).trans ?_
  simpa using foldl_insertLeftwards_perm c []

theorem insertLeftwards_sorted (x : Range) (l : List Range) (hx : x.NoNaN)
    (hl : ∀ y ∈ l, y.NoNaN) (hs : l.Pairwise (fun a b => b.rle a)) :
    (insertLeftwards x l).Pairwise (fun a b => b.rle a) := by
  induction l with
  | nil => simp [insertLeftwards]
  | cons y ys ih =>
    unfold insertLeftwards
    rw [List.pairwise_cons] at hs
    split_ifs with h
    · rw [List.pairwise_cons]
      refine ⟨?_, ih (fun z hz => hl z (List.mem_cons_of_mem _ hz)) hs.2⟩
      intro z hz
      rcases List.mem_cons.mp ((insertLeftwards_perm x ys).subset hz) with hz | hz
      · rw [hz]; exact Or.inr h
      · exact hs.1 z hz
    · have hyx : y.rle x :=
        rle_of_not_less (hl y (List.mem_cons_self _ _)) hx (by simpa using h)
      rw [List.pairwise_cons]
      refine ⟨?_, List.pairwise_cons.mpr hs⟩
      intro z hz
      rcases List.mem_cons.mp hz with hz | hz
      · rw [hz]; exact hyx
      · exact rle_trans (hs.1 z hz) hyx

theorem foldl_insertLeftwards_sorted (c acc : List Range) (hc : ∀ y ∈ c, y.NoNaN)
    (ha : ∀ y ∈ acc, y.NoNaN) (hs : acc.Pairwise (fun a b => b.rle a)) :
    (c.foldl (fun sortedRev x => insertLeftwards x sortedRev) acc).Pairwise
      (fun a b => b.rle a) := by
  induction c generalizing acc with
  | nil => exact hs
  | cons x xs ih =>
    simp only [List.foldl_cons]
    have hx := hc x (List.mem_cons_self _ _)
    refine ih _ (fun y hy => hc y (List.mem_cons_of_mem _ hy)) ?_
      (insertLeftwards_sorted x acc hx ha hs)
    intro y hy
    rcases List.mem_cons.mp ((insertLeftwards_perm x acc).subset hy) with h | h
    · rw [h]; exact hx
    · exact ha y h

theorem sortSort_sorted (c : RangeCollection) (hc : ∀ y ∈ c, y.NoNaN) :
    (sortSort c).Pairwise Range.rle := by
  unfold sortSort
  rw [List.pairwise_reverse]
  exact foldl_insertLeftwards_sorted c [] hc (by simp) List.Pairwise.nil

theorem sorted_unique {l₁ l₂ : List Range} (hp : l₁.Perm l₂)
    (h₁ : l₁.Pairwise Range.rle) (h₂ : l₂.Pairwise Range.rle) : l₁ = l₂ :=
  @List.eq_of_perm_of_sorted Range Range.rle ⟨fun _ _ => rle_antisymm⟩ _ _ hp h₁ h₂

theorem pairwise_of_sortIsSorted (c : RangeCollection) (hc : ∀ y ∈ c, y.NoNaN)
    (h : sortIsSorted c = true) : c.Pairwise Range.rle := by
  induction c with
  | nil => exact List.Pairwise.nil
  | cons a rest ih =>
    cases rest with
    | nil => simp
    | cons b rest =>
      simp only [sortIsSorted, Bool.and_eq_true, Bool.not_eq_true'] at h
      have hb := ih (fun y hy => hc y (List.mem_cons_of_mem _ hy)) h.2
      have hab : a.rle b :=
        rle_of_not_less (hc a (List.mem_cons_self _ _))
          (hc b (List.mem_cons_of_mem _ (List.mem_cons_self _ _))) h.1
      rw [List.pairwise_cons]
      refine ⟨?_, hb⟩
      intro z hz
      rcases List.mem_cons.mp hz with hz | hz
      · rw [hz]; exact hab
      · exact rle_trans hab ((List.pairwise_cons.mp hb).1 z hz)

theorem sortIsSorted_of_chain (c : RangeCollection)
    (h : c.Chain' (fun a b => b.less a = false)) : sortIsSorted c = true := by
  induction c with
  | nil => rfl
  | cons a rest ih =>
    cases rest with
    | nil => rfl
    | cons b rest =>
      rw [List.chain'_cons] at h
      simp [sortIsSorted, h.1, ih h.2]

theorem sortSort_eq_of_perm {p c : RangeCollection} (hp : p.Perm c)
    (hc : ∀ y ∈ c, y.NoNaN) : sortSort p = sortSort c :=
  sorted_unique (((sortSort_perm p).trans hp).trans (sortSort_perm c).symm)
    (sortSort_sorted p (fun y hy => hc y (hp.subset hy))) (sortSort_sorted c hc)

theorem sortSort_eq_self {c : RangeCollection} (hc : ∀ y ∈ c, y.NoNaN)
    (h : sortIsSorted c = true) : sortSort c = c :=
  sorted_unique (sortSort_perm c) (sortSort_sorted c hc) (pairwise_of_sortIsSorted c hc h)

/-! ## `IsMerged` -/

theorem sortIsSorted_iff_chain (c : RangeCollection) :
    sortIsSorted c = true ↔ c.Chain' (fun a b => b.less a = false) := by
  induction c with
  | nil => simp [sortIsSorted]
  | cons a rest ih =>
    cases rest with
    | nil => simp [sortIsSorted]
    | cons b rest =>
      rw [List.chain'_cons, ← ih]
      simp [sortIsSorted]

theorem noNeighbourOverlap_iff_chain (c : RangeCollection) :
    noNeighbourOverlap c = true ↔ c.Chain' (fun a b => a.Overlap b = false) := by
  induction c with
  | nil => simp [noNeighbourOverlap]
  | cons a rest ih =>
    cases rest with
    | nil => simp [noNeighbourOverlap]
    | cons b rest =>
      rw [List.chain'_cons, ← ih]
      simp [noNeighbourOverlap]

theorem isMerged_iff (c : RangeCollection) :
    c.IsMerged = true ↔
      c.Chain' (fun a b => b.less a = false) ∧ c.Chain' (fun a b => a.Overlap b = false) := by
  rw [← sortIsSorted_iff_chain, ← noNeighbourOverlap_iff_chain]
  unfold RangeCollection.IsMerged
  cases sortIsSorted c <;> simp

theorem isMerged_iff_sep (c : RangeCollection) : c.IsMerged = true ↔ c.Chain' Range.Sep := by
  rw [isMerged_iff]
  induction c with
  | nil => simp
  | cons a rest ih =>
    cases rest with
    | nil => simp
    | cons b rest =>
      simp only [List.chain'_cons] at ih ⊢
      rw [← ih]
      unfold Range.Sep
      tauto

/-! ## The loop of `RangeCollection.Merge` -/

theorem chain_concat {R : Range → Range → Prop} (acc : List Range) (cur x : Range)
    (h : (acc ++ [cur]).Chain' R) (hx : R cur x) : ((acc ++ [cur]) ++ [x]).Chain' R := by
  rw [List.chain'_append]
  refine ⟨h, List.chain'_singleton x, ?_⟩
  intro a ha b hb
  simp only [List.getLast?_append, List.getLast?_singleton, Option.or,
    Option.mem_def, Option.some.injEq, List.head?_cons] at ha hb
  rw [← ha, ← hb]
  exact hx

theorem chain_replace_last {R : Range → Range → Prop} (acc : List Range) (cur new : Range)
    (h : (acc ++ [cur]).Chain' R) (hx : ∀ p, R p cur → R p new) :
    (acc ++ [new]).Chain' R := by
  rw [List.chain'_append] at h ⊢
  refine ⟨h.1, List.chain'_singleton new, ?_⟩
  intro a ha b hb
  simp only [List.head?_cons, Option.mem_def, Option.some.injEq] at hb
  rw [← hb]
  exact hx a (h.2.2 a ha cur (by simp))

theorem merged_eq {cur x : Range} (ho : cur.Overlap x = true)
    (hle : cur.Start.le x.Start = true) :
    (cur.Merge x).1 = ⟨cur.Start, mathMax cur.End x.End⟩ := by
  rw [range_merge_of_overlap ho, mathMin_of_le hle]

theorem sep_grow {p cur : Range} {m : F64} (hm : cur.End.le m = true)
    (h : p.Sep cur) : p.Sep ⟨cur.Start, m⟩ := by
  obtain ⟨h1, h2⟩ := h
  refine ⟨?_, ?_⟩
  · unfold Range.less at h1 ⊢
    simp only
    split_ifs at h1 ⊢ with he
    · cases hlt : m.lt p.End
      · rfl
      · rw [f64_lt_of_le_of_lt hm hlt] at h1
        exact Bool.noConfusion h1
    · exact h1
  · rw [overlap_eq] at h2 ⊢
    exact h2

theorem mergeLoop_sep (rest : List Range) (acc : List Range) (cur : Range)
    (hcur : cur.NoNaN) (hrest : ∀ y ∈ rest, y.NoNaN)
    (hs : rest.Pairwise Range.rle)
    (hle : ∀ y ∈ rest, cur.Start.le y.Start = true)
    (hd : cur.Start.le cur.End = true ∨ ∀ y ∈ rest, cur.rle y)
    (hacc : (acc ++ [cur]).Chain' Range.Sep) :
    (mergeLoop acc cur rest).Chain' Range.Sep := by
  induction rest generalizing acc cur with
  | nil => exact hacc
  | cons x rest ih =>
    have hx := hrest x (List.mem_cons_self _ _)
    have hrest' : ∀ y ∈ rest, y.NoNaN := fun y hy => hrest y (List.mem_cons_of_mem _ hy)
    have hcx := hle x (List.mem_cons_self _ _)
    rw [List.pairwise_cons] at hs
    unfold mergeLoop
    by_cases ho : cur.Overlap x = true
    · rw [if_pos ho]
      have hm := merged_eq ho hcx
      have hgrow : cur.End.le (mathMax cur.End x.End) = true := le_mathMax_left hcur.2 hx.2
      have hchain : (acc ++ [(cur.Merge x).1]).Chain' Range.Sep := by
        rw [hm]
        exact chain_replace_last acc cur _ hacc (fun p hp => sep_grow hgrow hp)
      dsimp only
      split_ifs
      · exact hchain
      · refine ih acc _ ?_ hrest' hs.2 ?_ ?_ hchain
        · rw [hm]; exact ⟨hcur.1, mathMax_ne_nan hcur.2 hx.2⟩
        · intro y hy
          rw [hm]
          exact hle y (List.mem_cons_of_mem _ hy)
        · left
          rw [hm]
          rw [overlap_eq] at ho
          exact f64_le_trans (f64_le_trans hcx ho) hgrow
    · rw [if_neg ho]
      have ho' : cur.Overlap x = false := by simpa using ho
      have hsep : cur.Sep x := by
        refine ⟨?_, ho'⟩
        rcases hd with hd | hd
        · rw [overlap_eq] at ho'
          have h1 := f64_lt_of_not_le hx.1 hcur.2 ho'
          exact less_asymm (less_of_start_lt (f64_lt_of_le_of_lt hd h1))
        · exact not_less_of_rle (hd x (List.mem_cons_self _ _))
      refine ih (acc ++ [cur]) x hx hrest' hs.2 ?_ (Or.inr hs.1) (chain_concat acc cur x hacc hsep)
      intro y hy
      exact rle_start_le hx (hs.1 y hy)

theorem mergeSorted_sep (l : List Range) (hl : ∀ y ∈ l, y.NoNaN)
    (hs : l.Pairwise Range.rle) : (mergeSorted l).Chain' Range.Sep := by
  cases l with
  | nil => exact List.chain'_nil
  | cons c₀ rest =>
    simp only [mergeSorted]
    rw [List.pairwise_cons] at hs
    split_ifs
    · exact List.chain'_singleton _
    · have h0 := hl c₀ (List.mem_cons_self _ _)
      exact mergeLoop_sep rest [] c₀ h0 (fun y hy => hl y (List.mem_cons_of_mem _ hy)) hs.2
        (fun y hy => rle_start_le h0 (hs.1 y hy)) (Or.inr hs.1) (List.chain'_singleton _)

theorem merge_isMerged (c : RangeCollection) (hc : ∀ y ∈ c, y.NoNaN) :
    (RangeCollection.Merge c).IsMerged = true := by
  unfold RangeCollection.Merge
  split_ifs with h0 h1
  · rw [List.length_eq_zero.mp h0]; rfl
  · exact h1
  · rw [isMerged_iff_sep]
    exact mergeSorted_sep _ (fun y hy => hc y ((sortSort_perm c).subset hy))
      (sortSort_sorted c hc)

theorem merged_valid {a b : Range} (ha : a.Start.le a.End = true)
    (hb : b.Start.le b.End = true) (ho : a.Overlap b = true) :
    (a.Merge b).1.Start.le (a.Merge b).1.End = true := by
  have has := (f64_le_ne_nan ha).1
  have hae := (f64_le_ne_nan ha).2
  have hbs := (f64_le_ne_nan hb).1
  have hbe := (f64_le_ne_nan hb).2
  rw [range_merge_of_overlap ho]
  exact f64_le_trans (f64_le_trans (mathMin_le_left has hbs) ha) (le_mathMax_left hae hbe)

theorem mergeLoop_valid (rest : List Range) (acc : List Range) (cur : Range)
    (hacc : ∀ r ∈ acc, r.Start.le r.End = true) (hcur : cur.Start.le cur.End = true)
    (hrest : ∀ r ∈ rest, r.Start.le r.End = true) :
    ∀ r ∈ mergeLoop acc cur rest, r.Start.le r.End = true := by
  induction rest generalizing acc cur with
  | nil =>
    intro r hr
    rcases List.mem_append.mp hr with h | h
    · exact hacc r h
    · rw [List.mem_singleton.mp h]; exact hcur
  | cons x rest ih =>
    have hx := hrest x (List.mem_cons_self _ _)
    have hrest' : ∀ r ∈ rest, r.Start.le r.End = true :=
      fun r hr => hrest r (List.mem_cons_of_mem _ hr)
    unfold mergeLoop
    by_cases ho : cur.Overlap x = true
    · rw [if_pos ho]
      have hm := merged_valid hcur hx ho
      dsimp only
      split_ifs
      · intro r hr
        rcases List.mem_append.mp hr with h | h
        · exact hacc r h
        · rw [List.mem_singleton.mp h]; exact hm
      · exact ih acc _ hacc hm hrest'
    · rw [if_neg ho]
      refine ih (acc ++ [cur]) x ?_ hx hrest'
      intro r hr
      rcases List.mem_append.mp hr with h | h
      · exact hacc r h
      · rw [List.mem_singleton.mp h]; exact hcur

theorem mergeSorted_valid (l : List Range) (hl : ∀ r ∈ l, r.Start.le r.End = true) :
    ∀ r ∈ mergeSorted l, r.Start.le r.End = true := by
  cases l with
  | nil => intro r hr; cases hr
  | cons c₀ rest =>
    simp only [mergeSorted]
    have h0 := hl c₀ (List.mem_cons_self _ _)
    split_ifs
    · intro r hr
      rw [List.mem_singleton.mp hr]; exact h0
    · exact mergeLoop_valid rest [] c₀ (fun r hr => by cases hr) h0
        (fun r hr => hl r (List.mem_cons_of_mem _ hr))

theorem merge_valid (c : RangeCollection) (hc : ∀ r ∈ c, r.Start.le r.End = true) :
    ∀ r ∈ RangeCollection.Merge c, r.Start.le r.End = true := by
  unfold RangeCollection.Merge
  split_ifs
  · exact hc
  · exact hc
  · exact mergeSorted_valid _ (fun r hr => hc r ((sortSort_perm c).subset hr))

/-! ## Neighbours that are apart are all apart -/

theorem pairwise_apart_of_chain_sep (l : List Range) (hl : ∀ r ∈ l, r.Start.le r.End = true)
    (h : l.Chain' Range.Sep) : l.Pairwise (fun a b => a.End.lt b.Start = true) := by
  induction l with
  | nil => exact List.Pairwise.nil
  | cons a rest ih =>
    cases rest with
    | nil => simp
    | cons b rest =>
      rw [List.chain'_cons] at h
      have hb := hl b (List.mem_cons_of_mem _ (List.mem_cons_self _ _))
      have ha := hl a (List.mem_cons_self _ _)
      have hrec := ih (fun r hr => hl r (List.mem_cons_of_mem _ hr)) h.2
      have hab : a.End.lt b.Start = true := by
        have := h.1.2
        rw [overlap_eq] at this
        exact f64_lt_of_not_le (f64_le_ne_nan hb).1 (f64_le_ne_nan ha).2 this
      rw [List.pairwise_cons]
      refine ⟨?_, hrec⟩
      intro z hz
      rcases List.mem_cons.mp hz with hz | hz
      · rw [hz]; exact hab
      · exact f64_lt_of_lt_of_le hab
          (f64_le_trans hb (f64_le_of_lt ((List.pairwise_cons.mp hrec).1 z hz)))

theorem apart_disjoint {a b : Range} (h : a.End.lt b.Start = true) (v : F64) :
    ¬(a.Contains v = true ∧ b.Contains v = true) := by
  rintro ⟨ha, hb⟩
  rw [contains_iff] at ha hb
  have := f64_not_le_of_lt h
  rw [f64_le_trans hb.1 ha.2] at this
  exact Bool.noConfusion this

/-! ## The values of a merged collection -/

theorem contains_merged {cur x : Range} {v : F64}
    (hcur : cur.Start.le cur.End = true) (hx : x.Start.le x.End = true)
    (hle : cur.Start.le x.Start = true) (ho : cur.Overlap x = true) :
    (cur.Merge x).1.Contains v = true ↔ cur.Contains v = true ∨ x.Contains v = true := by
  have hce := (f64_le_ne_nan hcur).2
  have hxe := (f64_le_ne_nan hx).2
  rw [merged_eq ho hle, contains_iff, contains_iff, contains_iff]
  rw [overlap_eq] at ho
  dsimp only
  constructor
  · rintro ⟨h1, h2⟩
    have hv := (f64_le_ne_nan h1).2
    cases hvc : v.le cur.End
    · right
      have hlt := f64_lt_of_not_le hv hce hvc
      refine ⟨f64_le_trans ho (f64_le_of_lt hlt), ?_⟩
      cases hcx : cur.End.le x.End
      · rw [mathMax_of_lt (f64_lt_of_not_le hce hxe hcx), hvc] at h2
        exact Bool.noConfusion h2
      · rwa [mathMax_of_le hcx] at h2
    · left
      exact ⟨h1, rfl⟩
  · rintro (⟨h1, h2⟩ | ⟨h1, h2⟩)
    · exact ⟨h1, f64_le_trans h2 (le_mathMax_left hce hxe)⟩
    · exact ⟨f64_le_trans hle h1, f64_le_trans h2 (le_mathMax_right hce hxe)⟩

theorem contains_of_end_pinf {m y : Range} {v : F64} (he : m.End.eq .pinf = true)
    (hle : m.Start.le y.Start = true) (hy : y.Contains v = true) : m.Contains v = true := by
  rw [contains_iff] at hy ⊢
  refine ⟨f64_le_trans hle hy.1, ?_⟩
  rw [(f64_eq_iff.mp he).1]
  exact f64_le_pinf (f64_le_ne_nan hy.1).2

theorem exists_mem_concat (P : Range → Prop) (acc : List Range) (cur : Range) :
    (∃ r ∈ acc ++ [cur], P r) ↔ ((∃ r ∈ acc, P r) ∨ P cur) := by
  constructor
  · rintro ⟨r, hr, hp⟩
    rcases List.mem_append.mp hr with h | h
    · exact Or.inl ⟨r, h, hp⟩
    · rw [List.mem_singleton.mp h] at hp
      exact Or.inr hp
  · rintro (⟨r, hr, hp⟩ | hp)
    · exact ⟨r, List.mem_append_left _ hr, hp⟩
    · exact ⟨cur, List.mem_append_right _ (List.mem_singleton_self _), hp⟩

theorem exists_mem_head (P : Range → Prop) (x : Range) (rest : List Range) :
    (∃ r ∈ x :: rest, P r) ↔ (P x ∨ ∃ r ∈ rest, P r) := by
  constructor
  · rintro ⟨r, hr, hp⟩
    rcases List.mem_cons.mp hr with h | h
    · rw [h] at hp
      exact Or.inl hp
    · exact Or.inr ⟨r, h, hp⟩
  · rintro (hp | ⟨r, hr, hp⟩)
    · exact ⟨x, List.mem_cons_self _ _, hp⟩
    · exact ⟨r, List.mem_cons_of_mem _ hr, hp⟩

theorem mergeLoop_contains (v : F64) (rest : List Range) (acc : List Range) (cur : Range)
    (hcur : cur.Start.le cur.End = true)
    (hrest : ∀ r ∈ rest, r.Start.le r.End = true)
    (hle : ∀ y ∈ rest, cur.Start.le y.Start = true)
    (hs : rest.Pairwise (fun a b => a.Start.le b.Start = true)) :
    (∃ r ∈ mergeLoop acc cur rest, r.Contains v = true) ↔
      ((∃ r ∈ acc, r.Contains v = true) ∨ cur.Contains v = true ∨
        ∃ r ∈ rest, r.Contains v = true) := by
  induction rest generalizing acc cur with
  | nil =>
    unfold mergeLoop
    rw [exists_mem_concat]
    constructor
    · rintro (h | h)
      · exact Or.inl h
      · exact Or.inr (Or.inl h)
    · rintro (h | h | ⟨r, hr, _⟩)
      · exact Or.inl h
      · exact Or.inr h
      · cases hr
  | cons x rest ih =>
    have hx := hrest x (List.mem_cons_self _ _)
    have hrest' : ∀ r ∈ rest, r.Start.le r.End = true :=
      fun r hr => hrest r (List.mem_cons_of_mem _ hr)
    have hcx := hle x (List.mem_cons_self _ _)
    rw [List.pairwise_cons] at hs
    rw [exists_mem_head]
    unfold mergeLoop
    by_cases ho : cur.Overlap x = true
    · rw [if_pos ho]
      have hm := merged_eq ho hcx
      have hk := @contains_merged cur x v hcur hx hcx ho
      have hmle : ∀ y ∈ rest, (cur.Merge x).1.Start.le y.Start = true := by
        intro y hy
        rw [hm]
        exact hle y (List.mem_cons_of_mem _ hy)
      dsimp only
      split_ifs with hinf
      · rw [exists_mem_concat, hk]
        constructor
        · rintro (h | h | h)
          · exact Or.inl h
          · exact Or.inr (Or.inl h)
          · exact Or.inr (Or.inr (Or.inl h))
        · rintro (h | h | h | ⟨y, hy, hyv⟩)
          · exact Or.inl h
          · exact Or.inr (Or.inl h)
          · exact Or.inr (Or.inr h)
          · exact Or.inr (hk.mp (contains_of_end_pinf hinf (hmle y hy) hyv))
      · rw [ih acc _ (merged_valid hcur hx ho) hrest' hmle hs.2, hk]
        generalize (∃ r ∈ acc, r.Contains v = true) = A
        generalize (∃ r ∈ rest, r.Contains v = true) = B
        tauto
    · rw [if_neg ho]
      rw [ih (acc ++ [cur]) x hx hrest' hs.1 hs.2, exists_mem_concat]
      generalize (∃ r ∈ acc, r.Contains v = true) = A
      generalize (∃ r ∈ rest, r.Contains v = true) = B
      tauto

theorem mergeSorted_contains (v : F64) (l : List Range)
    (hl : ∀ r ∈ l, r.Start.le r.End = true)
    (hs : l.Pairwise (fun a b => a.Start.le b.Start = true)) :
    (∃ r ∈ mergeSorted l, r.Contains v = true) ↔ ∃ r ∈ l, r.Contains v = true := by
  cases l with
  | nil => simp [mergeSorted]
  | cons c₀ rest =>
    simp only [mergeSorted]
    rw [List.pairwise_cons] at hs
    have h0 := hl c₀ (List.mem_cons_self _ _)
    rw [exists_mem_head]
    split_ifs with hinf
    · rw [exists_mem_head]
      constructor
      · rintro (h | ⟨r, hr, _⟩)
        · exact Or.inl h
        · cases hr
      · rintro (h | ⟨y, hy, hyv⟩)
        · exact Or.inl h
        · exact Or.inl (contains_of_end_pinf hinf (hs.1 y hy) hyv)
    · rw [mergeLoop_contains v rest [] c₀ h0 (fun r hr => hl r (List.mem_cons_of_mem _ hr))
        hs.1 hs.2]
      constructor
      · rintro (⟨r, hr, _⟩ | h)
        · cases hr
        · exact h
      · exact Or.inr

theorem pairwise_start_le_of_rle (l : List Range) (hl : ∀ r ∈ l, r.NoNaN)
    (h : l.Pairwise Range.rle) : l.Pairwise (fun a b => a.Start.le b.Start = true) :=
  h.imp_of_mem (fun ha _ hab => rle_start_le (hl _ ha) hab)

/-! ## The early return of `Merge` on a merged collection -/

theorem mergeLoop_of_noOverlap (rest : List Range) (acc : List Range) (cur : Range)
    (h : (cur :: rest).Chain' (fun a b => a.Overlap b = false)) :
    mergeLoop acc cur rest = acc ++ cur :: rest := by
  induction rest generalizing acc cur with
  | nil => rfl
  | cons x rest ih =>
    rw [List.chain'_cons] at h
    unfold mergeLoop
    rw [if_neg (by rw [h.1]; exact Bool.false_ne_true)]
    rw [ih (acc ++ [cur]) x h.2]
    simp

theorem mergeSorted_of_isMerged (l : List Range) (hl : ∀ r ∈ l, r.NoNaN)
    (h : RangeCollection.IsMerged l = true) : mergeSorted l = l := by
  rw [isMerged_iff] at h
  cases l with
  | nil => rfl
  | cons c₀ rest =>
    simp only [mergeSorted]
    split_ifs with hinf
    · cases rest with
      | nil => rfl
      | cons x rest =>
        exfalso
        have hx := hl x (List.mem_cons_of_mem _ (List.mem_cons_self _ _))
        have ho := (List.chain'_cons.mp h.2).1
        rw [overlap_eq, (f64_eq_iff.mp hinf).1, f64_le_pinf hx.1] at ho
        exact Bool.noConfusion ho
    · rw [mergeLoop_of_noOverlap rest [] c₀ h.2]
      rfl

theorem merge_eq_mergeSorted (c : RangeCollection) (hc : ∀ r ∈ c, r.NoNaN) :
    RangeCollection.Merge c = mergeSorted (sortSort c) := by
  unfold RangeCollection.Merge
  split_ifs with h0 h1
  · rw [List.length_eq_zero.mp h0]; rfl
  · have hsorted : sortIsSorted c = true := by
      rw [sortIsSorted_iff_chain]
      exact ((isMerged_iff c).mp h1).1
    rw [sortSort_eq_self hc hsorted, mergeSorted_of_isMerged c hc h1]
  · rfl

/-! ## Merging a collection -/

/-- C1: when every range of `c` has `Start <= End`, `IsMerged` is true of
`c.Merge()`; the result is in ascending order of `(Start, End)` and no range of
it overlaps the one after it. -/
theorem merge_result_isMerged (c : RangeCollection)
    (hc : ∀ r ∈ c, r.Start.le r.End = true) :
    (RangeCollection.Merge c).IsMerged = true ∧
    (RangeCollection.Merge c).Pairwise
      (fun a b => a.Start.lt b.Start = true ∨
        (a.Start = b.Start ∧ a.End.le b.End = true)) ∧
    (RangeCollection.Merge c).Chain' (fun a b => a.Overlap b = false) := by
  have hm := merge_isMerged c (fun r hr => noNaN_of_valid (hc r hr))
  have hn : ∀ r ∈ RangeCollection.Merge c, r.NoNaN :=
    fun r hr => noNaN_of_valid (merge_valid c hc r hr)
  have hchains := (isMerged_iff _).mp hm
  refine ⟨hm, ?_, hchains.2⟩
  have hp := pairwise_of_sortIsSorted _ hn ((sortIsSorted_iff_chain _).mpr hchains.1)
  refine hp.imp_of_mem ?_
  intro a b ha _ hab
  rcases hab with hab | hab
  · rw [← hab]
    exact Or.inr ⟨rfl, f64_le_refl (hn a ha).2⟩
  · unfold Range.less at hab
    split_ifs at hab with he
    · exact Or.inr ⟨(f64_eq_iff.mp he).1, f64_le_of_lt hab⟩
    · exact Or.inl hab

/-- The collection "1:5", "7:", "4:6" merges into a merged collection. -/
theorem merge_result_isMerged_witness :
    (RangeCollection.Merge sampleCollection).IsMerged = true ∧
    (RangeCollection.Merge sampleCollection).Pairwise
      (fun a b => a.Start.lt b.Start = true ∨
        (a.Start = b.Start ∧ a.End.le b.End = true)) ∧
    (RangeCollection.Merge sampleCollection).Chain' (fun a b => a.Overlap b = false) :=
  merge_result_isMerged sampleCollection (by decide)

/-- C2: when every range of `c` has `Start <= End`, a value is contained in some
range of `c.Merge()` exactly when it is contained in some range of `c`. -/
theorem merge_same_values (c : RangeCollection)
    (hc : ∀ r ∈ c, r.Start.le r.End = true) (v : F64) :
    (∃ r ∈ RangeCollection.Merge c, r.Contains v = true) ↔
      ∃ r ∈ c, r.Contains v = true := by
  unfold RangeCollection.Merge
  split_ifs
  · exact Iff.rfl
  · exact Iff.rfl
  · have hv : ∀ r ∈ sortSort c, r.Start.le r.End = true :=
      fun r hr => hc r ((sortSort_perm c).subset hr)
    have hs := pairwise_start_le_of_rle (sortSort c) (fun r hr => noNaN_of_valid (hv r hr))
      (sortSort_sorted c (fun r hr => noNaN_of_valid (hc r hr)))
    rw [mergeSorted_contains v (sortSort c) hv hs]
    constructor
    · rintro ⟨r, hr, h⟩
      exact ⟨r, (sortSort_perm c).subset hr, h⟩
    · rintro ⟨r, hr, h⟩
      exact ⟨r, (sortSort_perm c).symm.subset hr, h⟩

/-- The value 6 is in "4:6" and in the merged "1:6". -/
theorem merge_same_values_witness :
    (∃ r ∈ RangeCollection.Merge sampleCollection, r.Contains (.fin 6) = true) ↔
      ∃ r ∈ sampleCollection, r.Contains (.fin 6) = true :=
  merge_same_values sampleCollection (by decide) (.fin 6)

/-- C3: when every range of `c` has `Start <= End`, no value is contained in the
ranges at two different positions of `c.Merge()`. -/
theorem merge_result_disjoint (c : RangeCollection)
    (hc : ∀ r ∈ c, r.Start.le r.End = true)
    (i j : Fin (RangeCollection.Merge c).length) (hij : i ≠ j) (v : F64) :
    ¬(((RangeCollection.Merge c).get i).Contains v = true ∧
      ((RangeCollection.Merge c).get j).Contains v = true) := by
  have hm := merge_isMerged c (fun r hr => noNaN_of_valid (hc r hr))
  have hp := pairwise_apart_of_chain_sep _ (merge_valid c hc) ((isMerged_iff_sep _).mp hm)
  rw [List.pairwise_iff_get] at hp
  rcases lt_or_gt_of_ne hij with h | h
  · exact apart_disjoint (hp i j h) v
  · intro hv
    exact apart_disjoint (hp j i h) v ⟨hv.2, hv.1⟩

/-- The two ranges of the merged "1:5", "7:", "4:6" do not both contain 6. -/
theorem merge_result_disjoint_witness :
    ¬(((RangeCollection.Merge sampleCollection).get ⟨0, by decide⟩).Contains (.fin 6) = true ∧
      ((RangeCollection.Merge sampleCollection).get ⟨1, by decide⟩).Contains (.fin 6) = true) :=
  merge_result_disjoint sampleCollection (by decide) ⟨0, by decide⟩ ⟨1, by decide⟩
    (by decide) (.fin 6)

/-- C4 as stated fails at the collection (1, 2), (NaN, 5), (-Inf, 7): its merge
is (1, 2), (-Inf, 7), and merging that again gives (-Inf, 7). -/
theorem merge_not_idempotent_with_nan :
    RangeCollection.Merge [⟨.fin 1, .fin 2⟩, ⟨.nan, .fin 5⟩, ⟨.ninf, .fin 7⟩] =
      [⟨.fin 1, .fin 2⟩, ⟨.ninf, .fin 7⟩] ∧
    RangeCollection.Merge
        (RangeCollection.Merge [⟨.fin 1, .fin 2⟩, ⟨.nan, .fin 5⟩, ⟨.ninf, .fin 7⟩]) =
      [⟨.ninf, .fin 7⟩] ∧
    RangeCollection.Merge
        (RangeCollection.Merge [⟨.fin 1, .fin 2⟩, ⟨.nan, .fin 5⟩, ⟨.ninf, .fin 7⟩]) ≠
      RangeCollection.Merge [⟨.fin 1, .fin 2⟩, ⟨.nan, .fin 5⟩, ⟨.ninf, .fin 7⟩] := by
  decide

/-- C4, amended: when no bound of `c` is a NaN, `c.Merge().Merge()` is
`c.Merge()`. -/
theorem merge_idempotent (c : RangeCollection)
    (hc : ∀ r ∈ c, r.Start ≠ .nan ∧ r.End ≠ .nan) :
    RangeCollection.Merge (RangeCollection.Merge c) = RangeCollection.Merge c := by
  have hm := merge_isMerged c hc
  generalize RangeCollection.Merge c = m at hm
  unfold RangeCollection.Merge
  rw [if_pos hm]
  split_ifs <;> rfl

/-- Merging "1:5", "7:", "4:6" twice is merging it once. -/
theorem merge_idempotent_witness :
    RangeCollection.Merge (RangeCollection.Merge sampleCollection) =
      RangeCollection.Merge sampleCollection :=
  merge_idempotent sampleCollection (by decide)

/-- C5 as stated fails at the collection (1, +Inf), (NaN, 3) and its reversal:
the first is returned as it is, the second merges into (NaN, +Inf). -/
theorem merge_order_dependent_with_nan :
    List.Perm [(⟨.nan, .fin 3⟩ : Range), ⟨.fin 1, .pinf⟩] [⟨.fin 1, .pinf⟩, ⟨.nan, .fin 3⟩] ∧
    RangeCollection.Merge [⟨.fin 1, .pinf⟩, ⟨.nan, .fin 3⟩] =
      [⟨.fin 1, .pinf⟩, ⟨.nan, .fin 3⟩] ∧
    RangeCollection.Merge [⟨.nan, .fin 3⟩, ⟨.fin 1, .pinf⟩] = [⟨.nan, .pinf⟩] ∧
    RangeCollection.Merge [⟨.nan, .fin 3⟩, ⟨.fin 1, .pinf⟩] ≠
      RangeCollection.Merge [⟨.fin 1, .pinf⟩, ⟨.nan, .fin 3⟩] :=
  ⟨List.Perm.swap _ _ _, by decide, by decide, by decide⟩

/-- C5, amended: when no bound of `c` is a NaN, every permutation of `c` has the
same merge as `c`. -/
theorem merge_perm (c p : RangeCollection)
    (hc : ∀ r ∈ c, r.Start ≠ .nan ∧ r.End ≠ .nan) (hp : p.Perm c) :
    RangeCollection.Merge p = RangeCollection.Merge c := by
  rw [merge_eq_mergeSorted c hc, merge_eq_mergeSorted p (fun r hr => hc r (hp.subset hr)),
    sortSort_eq_of_perm hp hc]

/-- The collections "4:6", "1:5", "7:" and "1:5", "7:", "4:6" have the same merge. -/
theorem merge_perm_witness :
    RangeCollection.Merge [⟨.fin 4, .fin 6⟩, ⟨.fin 1, .fin 5⟩, ⟨.fin 7, .pinf⟩] =
      RangeCollection.Merge sampleCollection :=
  merge_perm sampleCollection [⟨.fin 4, .fin 6⟩, ⟨.fin 1, .fin 5⟩, ⟨.fin 7, .pinf⟩]
    (by decide) (by decide)

/-! ## Merging two ranges -/

/-- C6: for ranges with `Start <= End`, `a.Merge(b)` returns an error exactly when
`a.Overlap(b)` is false, and otherwise it returns, without error, the range from
the smaller of the two starts to the larger of the two ends. -/
theorem range_merge_error_iff_not_overlap (a b : Range)
    (ha : a.Start.le a.End = true) (hb : b.Start.le b.End = true) :
    ((a.Merge b).2 ≠ none ↔ a.Overlap b = false) ∧
    (a.Overlap b = true →
      a.Merge b =
        (⟨if a.Start.le b.Start then a.Start else b.Start,
          if a.End.le b.End then b.End else a.End⟩, none)) := by
  have has := (f64_le_ne_nan ha).1
  have hae := (f64_le_ne_nan ha).2
  have hbs := (f64_le_ne_nan hb).1
  have hbe := (f64_le_ne_nan hb).2
  have hmin : mathMin a.Start b.Start = if a.Start.le b.Start then a.Start else b.Start := by
    cases h : a.Start.le b.Start
    · simp [mathMin_of_lt (f64_lt_of_not_le has hbs h)]
    · simp [mathMin_of_le h]
  have hmax : mathMax a.End b.End = if a.End.le b.End then b.End else a.End := by
    cases h : a.End.le b.End
    · simp [mathMax_of_lt (f64_lt_of_not_le hae hbe h)]
    · simp [mathMax_of_le h]
  constructor
  · cases h : a.Overlap b
    · simp [range_merge_of_not_overlap h]
    · simp [range_merge_of_overlap h]
  · intro h
    rw [range_merge_of_overlap h, hmin, hmax]

/-- The ranges (3, 5) and (2, 6) of `TestMergeEnvelopingRanges` merge into (2, 6). -/
theorem range_merge_error_iff_not_overlap_witness :
    (((⟨.fin 3, .fin 5⟩ : Range).Merge ⟨.fin 2, .fin 6⟩).2 ≠ none ↔
        (⟨.fin 3, .fin 5⟩ : Range).Overlap ⟨.fin 2, .fin 6⟩ = false) ∧
    ((⟨.fin 3, .fin 5⟩ : Range).Overlap ⟨.fin 2, .fin 6⟩ = true →
      (⟨.fin 3, .fin 5⟩ : Range).Merge ⟨.fin 2, .fin 6⟩ =
        (⟨if (F64.fin 3).le (.fin 2) then .fin 3 else .fin 2,
          if (F64.fin 5).le (.fin 6) then .fin 6 else .fin 5⟩, none)) :=
  range_merge_error_iff_not_overlap ⟨.fin 3, .fin 5⟩ ⟨.fin 2, .fin 6⟩ (by decide) (by decide)

/-- C7, at the ranges (5, 7) and (1, 4): both have `Start <= End` and they have no
value in common, yet `Merge` returns the range (1, 7) and no error. -/
theorem range_merge_disjoint_no_error :
    (F64.fin 5).le (.fin 7) = true ∧ (F64.fin 1).le (.fin 4) = true ∧
    (∀ v, ¬((⟨.fin 5, .fin 7⟩ : Range).Contains v = true ∧
        (⟨.fin 1, .fin 4⟩ : Range).Contains v = true)) ∧
    (⟨.fin 5, .fin 7⟩ : Range).Merge ⟨.fin 1, .fin 4⟩ = (⟨.fin 1, .fin 7⟩, none) := by
  refine ⟨by decide, by decide, ?_, by decide⟩
  intro v hv
  rw [contains_iff, contains_iff] at hv
  have h := f64_le_trans hv.1.1 hv.2.2
  revert h
  decide

/-- C8, at the ranges (5, 10) and (-100, -50): both have `Start <= End` and they
have no value in common, yet `Overlap` is true. -/
theorem range_overlap_true_on_disjoint :
    (F64.fin 5).le (.fin 10) = true ∧ (F64.fin (-100)).le (.fin (-50)) = true ∧
    (⟨.fin 5, .fin 10⟩ : Range).Overlap ⟨.fin (-100), .fin (-50)⟩ = true ∧
    ¬ ∃ v, (⟨.fin 5, .fin 10⟩ : Range).Contains v = true ∧
        (⟨.fin (-100), .fin (-50)⟩ : Range).Contains v = true := by
  refine ⟨by decide, by decide, by decide, ?_⟩
  rintro ⟨v, hv⟩
  rw [contains_iff, contains_iff] at hv
  have h := f64_le_trans hv.1.1 hv.2.2
  revert h
  decide

/-- C9: two ranges with `Start <= End` that share a value merge without error in
either order, and both orders return the same range. -/
theorem range_merge_comm (a b : Range)
    (_ha : a.Start.le a.End = true) (_hb : b.Start.le b.End = true)
    (hv : ∃ v, a.Contains v = true ∧ b.Contains v = true) :
    (a.Merge b).2 = none ∧ (b.Merge a).2 = none ∧ (a.Merge b).1 = (b.Merge a).1 := by
  obtain ⟨v, hav, hbv⟩ := hv
  rw [contains_iff] at hav hbv
  have hab : a.Overlap b = true := by
    rw [overlap_eq]; exact f64_le_trans hbv.1 hav.2
  have hba : b.Overlap a = true := by
    rw [overlap_eq]; exact f64_le_trans hav.1 hbv.2
  rw [range_merge_of_overlap hab, range_merge_of_overlap hba]
  refine ⟨rfl, rfl, ?_⟩
  simp only [mathMin_comm a.Start, mathMax_comm a.End]

/-- The ranges (3, 5) and (2, 4) of `TestMergeStartOverlappingRanges` share the
value 3. -/
theorem range_merge_comm_witness :
    ((⟨.fin 3, .fin 5⟩ : Range).Merge ⟨.fin 2, .fin 4⟩).2 = none ∧
    ((⟨.fin 2, .fin 4⟩ : Range).Merge ⟨.fin 3, .fin 5⟩).2 = none ∧
    ((⟨.fin 3, .fin 5⟩ : Range).Merge ⟨.fin 2, .fin 4⟩).1 =
      ((⟨.fin 2, .fin 4⟩ : Range).Merge ⟨.fin 3, .fin 5⟩).1 :=
  range_merge_comm ⟨.fin 3, .fin 5⟩ ⟨.fin 2, .fin 4⟩ (by decide) (by decide)
    ⟨.fin 3, by decide, by decide⟩

/-- C10: when `a` and `b` share a value and `b` and `c` share a value (all with
`Start <= End`), the four merges of `(a.Merge(b)).Merge(c)` and
`a.Merge(b.Merge(c))` all return no error, and the two results are the same
range. -/
theorem range_merge_assoc (a b c : Range)
    (ha : a.Start.le a.End = true) (hb : b.Start.le b.End = true)
    (hc : c.Start.le c.End = true)
    (hab : ∃ v, a.Contains v = true ∧ b.Contains v = true)
    (hbc : ∃ v, b.Contains v = true ∧ c.Contains v = true) :
    (a.Merge b).2 = none ∧ ((a.Merge b).1.Merge c).2 = none ∧
    (b.Merge c).2 = none ∧ (a.Merge (b.Merge c).1).2 = none ∧
    ((a.Merge b).1.Merge c).1 = (a.Merge (b.Merge c).1).1 := by
  obtain ⟨v, hav, hbv⟩ := hab
  obtain ⟨w, hbw, hcw⟩ := hbc
  rw [contains_iff] at hav hbv hbw hcw
  have has := (f64_le_ne_nan ha).1
  have hae := (f64_le_ne_nan ha).2
  have hbs := (f64_le_ne_nan hb).1
  have hbe := (f64_le_ne_nan hb).2
  have hcs := (f64_le_ne_nan hc).1
  have hce := (f64_le_ne_nan hc).2
  have h1 : a.Overlap b = true := by
    rw [overlap_eq]; exact f64_le_trans hbv.1 hav.2
  have h2 : b.Overlap c = true := by
    rw [overlap_eq]; exact f64_le_trans hcw.1 hbw.2
  have h3 : (⟨mathMin a.Start b.Start, mathMax a.End b.End⟩ : Range).Overlap c = true := by
    rw [overlap_eq]
    exact f64_le_trans (f64_le_trans hcw.1 hbw.2) (le_mathMax_right hae hbe)
  have h4 : a.Overlap ⟨mathMin b.Start c.Start, mathMax b.End c.End⟩ = true := by
    rw [overlap_eq]
    exact f64_le_trans (mathMin_le_left hbs hcs) (f64_le_trans hbv.1 hav.2)
  rw [range_merge_of_overlap h1, range_merge_of_overlap h2]
  dsimp only
  rw [range_merge_of_overlap h3, range_merge_of_overlap h4]
  refine ⟨rfl, rfl, rfl, rfl, ?_⟩
  simp only [mathMin_assoc, mathMax_assoc]

/-- The ranges (1, 3), (2, 5) and (4, 8): the first two share 2, the last two
share 4. -/
theorem range_merge_assoc_witness :
    ((⟨.fin 1, .fin 3⟩ : Range).Merge ⟨.fin 2, .fin 5⟩).2 = none ∧
    (((⟨.fin 1, .fin 3⟩ : Range).Merge ⟨.fin 2, .fin 5⟩).1.Merge ⟨.fin 4, .fin 8⟩).2 = none ∧
    ((⟨.fin 2, .fin 5⟩ : Range).Merge ⟨.fin 4, .fin 8⟩).2 = none ∧
    ((⟨.fin 1, .fin 3⟩ : Range).Merge
      ((⟨.fin 2, .fin 5⟩ : Range).Merge ⟨.fin 4, .fin 8⟩).1).2 = none ∧
    (((⟨.fin 1, .fin 3⟩ : Range).Merge ⟨.fin 2, .fin 5⟩).1.Merge ⟨.fin 4, .fin 8⟩).1 =
      ((⟨.fin 1, .fin 3⟩ : Range).Merge
        ((⟨.fin 2, .fin 5⟩ : Range).Merge ⟨.fin 4, .fin 8⟩).1).1 :=
  range_merge_assoc ⟨.fin 1, .fin 3⟩ ⟨.fin 2, .fin 5⟩ ⟨.fin 4, .fin 8⟩
    (by decide) (by decide) (by decide)
    ⟨.fin 2, by decide, by decide⟩ ⟨.fin 4, by decide, by decide⟩

/-! ## `strings.Index`, `strings.Contains`, `strings.Split` -/

theorem stringsIndex_of_isPrefixOf {s d : GoString} (h : d.isPrefixOf s = true) :
    stringsIndex s d = 0 := by
  cases s with
  | nil => simp [stringsIndex, h]
  | cons c t => simp [stringsIndex, h]

theorem stringsIndex_spec (s d : GoString) :
    (stringsIndex s d = -1 ∧ ¬ d <:+: s) ∨ (0 ≤ stringsIndex s d ∧ d <:+: s) := by
  induction s with
  | nil =>
    by_cases hd : d = []
    · right
      subst hd
      simp [stringsIndex]
    · left
      have hp : d.isPrefixOf [] = false := by
        cases d with
        | nil => exact absurd rfl hd
        | cons a l => rfl
      simp [stringsIndex, hp, hd]
  | cons c t ih =>
    by_cases hp : d.isPrefixOf (c :: t) = true
    · right
      rw [stringsIndex_of_isPrefixOf hp]
      exact ⟨le_refl _, (List.isPrefixOf_iff_prefix.mp hp).isInfix⟩
    · have hnp : ¬ d <+: c :: t := fun h => hp (List.isPrefixOf_iff_prefix.mpr h)
      rcases ih with ⟨h1, h2⟩ | ⟨h1, h2⟩
      · left
        refine ⟨by simp [stringsIndex, hp, h1], ?_⟩
        rw [List.infix_cons_iff]
        exact fun h => h.elim hnp h2
      · right
        refine ⟨?_, List.infix_cons h2⟩
        simp only [stringsIndex, hp, Bool.false_eq_true, if_false, not_lt.mpr h1]
        omega

theorem stringsContains_iff (s d : GoString) : stringsContains s d = true ↔ d <:+: s := by
  unfold stringsContains
  rw [decide_eq_true_iff]
  rcases stringsIndex_spec s d with ⟨h1, h2⟩ | ⟨h1, h2⟩
  · rw [h1]
    exact ⟨fun h => absurd h (by decide), fun h => absurd h h2⟩
  · exact ⟨fun _ => h2, fun _ => h1⟩

theorem stringsIndex_of_not_infix {s d : GoString} (h : ¬ d <:+: s) : stringsIndex s d = -1 := by
  rcases stringsIndex_spec s d with ⟨h1, _⟩ | ⟨_, h2⟩
  · exact h1
  · exact absurd h2 h

theorem stringsContains_self (d : GoString) : stringsContains d d = true :=
  (stringsContains_iff d d).mpr (List.infix_refl d)

theorem stringsIndex_of_once (d : GoString) (p q : GoString)
    (h : ∀ p' q', p' ++ d ++ q' = p ++ d ++ q → p' = p) :
    stringsIndex (p ++ d ++ q) d = p.length := by
  induction p with
  | nil =>
    rw [stringsIndex_of_isPrefixOf]
    · rfl
    · rw [List.isPrefixOf_iff_prefix]
      exact ⟨q, by simp⟩
  | cons c p ih =>
    have hp : ¬ d.isPrefixOf (c :: p ++ d ++ q) = true := by
      intro hp
      obtain ⟨t, ht⟩ := List.isPrefixOf_iff_prefix.mp hp
      have := h [] t (by simpa using ht)
      cases this
    have ih' := ih (fun p' q' hpq => by
      have := h (c :: p') q' (by simp only [List.cons_append, hpq])
      exact List.tail_eq_of_cons_eq this)
    have e : c :: p ++ d ++ q = c :: (p ++ d ++ q) := by simp
    rw [e] at hp ⊢
    simp only [stringsIndex, hp, Bool.false_eq_true, if_false, ih', List.length_cons]
    have : ¬ ((p.length : Int) < 0) := by omega
    simp only [this, if_false]
    push_cast
    rfl

theorem not_infix_right_of_once {d p q : GoString} (hd : d ≠ [])
    (h : ∀ p' q', p' ++ d ++ q' = p ++ d ++ q → p' = p) : ¬ d <:+: q := by
  rintro ⟨a, b, hab⟩
  have := h (p ++ d ++ a) b (by rw [← hab]; simp)
  have hlen := congrArg List.length this
  simp only [List.length_append] at hlen
  have : d.length = 0 := by omega
  exact hd (List.length_eq_zero.mp this)

theorem splitLoop_of_not_infix {d s : GoString} (h : ¬ d <:+: s) (rounds : Nat) :
    splitLoop d rounds s = [s] := by
  cases rounds with
  | zero => rfl
  | succ n => simp [splitLoop, stringsIndex_of_not_infix h]

theorem stringsSplit_of_once {d p q : GoString} (hd : d ≠ [])
    (h : ∀ p' q', p' ++ d ++ q' = p ++ d ++ q → p' = p) :
    stringsSplit (p ++ d ++ q) d = [p, q] := by
  unfold stringsSplit
  rw [if_neg hd]
  have hlen : (p ++ d ++ q).length = (p.length + d.length + q.length - 1) + 1 := by
    have : 0 < d.length := List.length_pos.mpr hd
    simp only [List.length_append]
    omega
  rw [hlen]
  simp only [splitLoop, stringsIndex_of_once d p q h]
  have : ¬ ((p.length : Int) < 0) := by omega
  simp only [this, if_false, Int.toNat_ofNat]
  have htake : List.take p.length (p ++ d ++ q) = p := by
    rw [List.append_assoc, List.take_left]
  have hdrop : List.drop (p.length + d.length) (p ++ d ++ q) = q := by
    rw [← List.length_append, List.drop_left]
  rw [htake, hdrop, splitLoop_of_not_infix (not_infix_right_of_once hd h)]

/-! ## `NewRange` and `ParseRange` -/

theorem newRange_of_not_gt {s e : F64} (h : s.gt e = false) : NewRange s e = (⟨s, e⟩, none) := by
  simp [NewRange, h]

theorem newRange_of_gt {s e : F64} (h : s.gt e = true) :
    NewRange s e = (⟨.fin 0, .fin 0⟩, some (.startAfterEnd s e)) := by
  simp [NewRange, h]

theorem newRange_start_le_end {s e : F64} (hn : (NewRange s e).2 = none)
    (hs : (NewRange s e).1.Start ≠ .nan) (he : (NewRange s e).1.End ≠ .nan) :
    (NewRange s e).1.Start.le (NewRange s e).1.End = true := by
  cases h : s.gt e
  · rw [newRange_of_not_gt h] at hs he ⊢
    exact f64_le_of_not_lt he hs h
  · rw [newRange_of_gt h] at hn
    cases hn

theorem parseRange_of_absent (parseFloat : GoString → F64 × Option NumError)
    {srange delimiter : GoString} {x : F64} (h : stringsContains srange delimiter = false)
    (hp : parseFloat srange = (x, none)) :
    ParseRange parseFloat srange delimiter = ((NewRange x x).1, none) := by
  simp [ParseRange, h, hp]

theorem parseRange_self (parseFloat : GoString → F64 × Option NumError) (delimiter : GoString) :
    ParseRange parseFloat delimiter delimiter = (⟨.ninf, .pinf⟩, none) := by
  simp [ParseRange, stringsContains_self]

theorem parseRange_default (parseFloat : GoString → F64 × Option NumError)
    {delimiter before after : GoString} {stop : F64} (hd : delimiter ≠ [])
    (hb : before ≠ []) (ha : after ≠ [])
    (honce : ∀ p q, p ++ delimiter ++ q = before ++ delimiter ++ after → p = before)
    (hp : parseFloat after = (stop, none)) :
    ParseRange parseFloat (before ++ delimiter ++ after) delimiter =
      NewRange (parseFloat before).1 stop := by
  have hc : stringsContains (before ++ delimiter ++ after) delimiter = true :=
    (stringsContains_iff _ _).mpr ⟨before, after, rfl⟩
  have hi := stringsIndex_of_once delimiter before after honce
  have hbl : 0 < before.length := List.length_pos.mpr hb
  have hal : 0 < after.length := List.length_pos.mpr ha
  have hdl : 0 < delimiter.length := List.length_pos.mpr hd
  have hne : before ++ delimiter ++ after ≠ delimiter := by
    intro h
    have := congrArg List.length h
    simp only [List.length_append] at this
    omega
  have h0 : ¬ ((before.length : Int) = 0) := by omega
  have hlast : ¬ ((before.length : Int) =
      ((before ++ delimiter ++ after).length : Int) - 1) := by
    simp only [List.length_append]
    push_cast
    omega
  simp only [ParseRange, hc, if_true, hi, hne, if_false, h0, hlast,
    stringsSplit_of_once hd honce]
  simp [hp]

/-- C11: `NewRange(s, e)` with `s <= e` returns the range from `s` to `e` and no
error, and that range contains exactly the values `v` with `s <= v <= e`;
`NewRange(s, e)` with `s > e` returns an error. -/
theorem newRange_result (s e : F64) :
    (s.le e = true →
      NewRange s e = (⟨s, e⟩, none) ∧
      ∀ v, (NewRange s e).1.Contains v = true ↔ (s.le v = true ∧ v.le e = true)) ∧
    (s.gt e = true → (NewRange s e).2 ≠ none) := by
  constructor
  · intro h
    have hr := newRange_of_not_gt (f64_not_lt_of_le h)
    refine ⟨hr, fun v => ?_⟩
    rw [hr, contains_iff]
  · intro h
    rw [newRange_of_gt h]
    exact fun h' => Option.noConfusion h'

/-- The range of `NewRange(1, 3)`, and the error of `NewRange(10, 1)` in
`TestDoNotParseInvalidRange`. -/
theorem newRange_result_witness :
    (NewRange (.fin 1) (.fin 3) = (⟨.fin 1, .fin 3⟩, none) ∧
      ∀ v, (NewRange (.fin 1) (.fin 3)).1.Contains v = true ↔
        ((F64.fin 1).le v = true ∧ v.le (.fin 3) = true)) ∧
    (NewRange (.fin 10) (.fin 1)).2 ≠ none :=
  ⟨(newRange_result (.fin 1) (.fin 3)).1 (by decide),
    (newRange_result (.fin 10) (.fin 1)).2 (by decide)⟩

/-- C12 as stated fails at `NewRange(NaN, 1)`: it returns the range (NaN, 1) and no
error, and `NaN <= 1` is false. -/
theorem newRange_nan_not_start_le_end :
    NewRange .nan (.fin 1) = (⟨.nan, .fin 1⟩, none) ∧
    (NewRange .nan (.fin 1)).1.Start.le (NewRange .nan (.fin 1)).1.End = false := by
  decide

/-- C12, amended: a range returned without error by `NewRange` or by `ParseRange`
has `Start <= End` unless one of its bounds is a NaN; `Range.Merge` on two ranges
with `Start <= End` returns, when it returns no error, a range with
`Start <= End`; and every range of `c.Merge()` has `Start <= End` when every
range of `c` has. -/
theorem start_le_end_of_results :
    (∀ s e, (NewRange s e).2 = none →
      (NewRange s e).1.Start ≠ .nan → (NewRange s e).1.End ≠ .nan →
      (NewRange s e).1.Start.le (NewRange s e).1.End = true) ∧
    (∀ (parseFloat : GoString → F64 × Option NumError) (srange delimiter : GoString),
      (ParseRange parseFloat srange delimiter).2 = none →
      (ParseRange parseFloat srange delimiter).1.Start ≠ .nan →
      (ParseRange parseFloat srange delimiter).1.End ≠ .nan →
      (ParseRange parseFloat srange delimiter).1.Start.le
        (ParseRange parseFloat srange delimiter).1.End = true) ∧
    (∀ a b : Range, a.Start.le a.End = true → b.Start.le b.End = true →
      (a.Merge b).2 = none → (a.Merge b).1.Start.le (a.Merge b).1.End = true) ∧
    (∀ c : RangeCollection, (∀ r ∈ c, r.Start.le r.End = true) →
      ∀ r ∈ RangeCollection.Merge c, r.Start.le r.End = true) := by
  refine ⟨fun s e => newRange_start_le_end, ?_, ?_, merge_valid⟩
  · intro parseFloat srange delimiter
    unfold ParseRange
    dsimp only
    split_ifs
    · intro _ _ _
      rfl
    · split
      · intro h; cases h
      · exact newRange_start_le_end
    · split
      · intro h; cases h
      · exact newRange_start_le_end
    · intro h; cases h
    · split
      · intro h; cases h
      · exact newRange_start_le_end
    · split
      · intro h; cases h
      · rename_i float _
        intro _ hs _
        have hf : float.gt float = false := f64_lt_irrefl float
        rw [newRange_of_not_gt hf] at hs ⊢
        exact f64_le_refl hs
  · intro a b ha hb hn
    cases ho : a.Overlap b
    · rw [range_merge_of_not_overlap ho] at hn
      cases hn
    · exact merged_valid ha hb ho

/-- The range of `NewRange(1, 3)` has `Start <= End`. -/
theorem start_le_end_of_results_witness :
    (NewRange (.fin 1) (.fin 3)).1.Start.le (NewRange (.fin 1) (.fin 3)).1.End = true :=
  start_le_end_of_results.1 (.fin 1) (.fin 3) (by decide) (by decide) (by decide)

/-- C16, at the text "::4" with the delimiter "::": "4" is a number and does not
contain "::", yet `ParseRange` returns a parsing error, because it parses
`srange[1:]`, which is ":4". -/
theorem parseRange_open_start_long_delimiter :
    ascii "::" ≠ [] ∧ parseDecimal (ascii "4") = (.fin 4, none) ∧
    ¬ ascii "::" <:+: ascii "4" ∧
    ascii "::4" = ascii "::" ++ ascii "4" ∧
    List.drop 1 (ascii "::4") = ascii ":4" ∧
    ParseRange parseDecimal (ascii "::4") (ascii "::") =
      (⟨.fin 0, .fin 0⟩, some (.parsing (ascii "::4") (ascii "::") (some .badText))) := by
  decide

/-- C17, at the text "4::" with the delimiter "::": "4" is a number and does not
contain "::", yet `ParseRange` returns a parsing error, because the delimiter
does not start at the last byte and the default case parses the empty text
behind it. -/
theorem parseRange_open_end_long_delimiter :
    ascii "::" ≠ [] ∧ parseDecimal (ascii "4") = (.fin 4, none) ∧
    ¬ ascii "::" <:+: ascii "4" ∧
    ascii "4::" = ascii "4" ++ ascii "::" ∧
    stringsSplit (ascii "4::") (ascii "::") = [ascii "4", ascii ""] ∧
    ParseRange parseDecimal (ascii "4::") (ascii "::") =
      (⟨.fin 0, .fin 0⟩, some (.parsing (ascii "4::") (ascii "::") (some .badText))) := by
  decide

/-- C18, at the text "x:5" with the delimiter ":": the first token "x" of the
split is not a number, yet `ParseRange` returns the range (0, 5) and no error. -/
theorem parseRange_bad_first_token_no_error :
    stringsSplit (ascii "x:5") (ascii ":") = [ascii "x", ascii "5"] ∧
    parseDecimal (ascii "x") = (.fin 0, some .badText) ∧
    parseDecimal (ascii "5") = (.fin 5, none) ∧
    ParseRange parseDecimal (ascii "x:5") (ascii ":") = (⟨.fin 0, .fin 5⟩, none) := by
  decide

/-- C19 as stated fails at the delimiter "11" and the numbers "1" and "5": neither
contains "11", but in "1115" the delimiter is found at index 0, and the result is
the range (-Inf, 115). -/
theorem parseRange_bounded_delimiter_overlaps_number :
    ascii "11" ≠ [] ∧ ascii "1" ≠ [] ∧ ascii "5" ≠ [] ∧
    parseDecimal (ascii "1") = (.fin 1, none) ∧ parseDecimal (ascii "5") = (.fin 5, none) ∧
    ¬ ascii "11" <:+: ascii "1" ∧ ¬ ascii "11" <:+: ascii "5" ∧
    (F64.fin 1).le (.fin 5) = true ∧
    ParseRange parseDecimal (ascii "1" ++ ascii "11" ++ ascii "5") (ascii "11") =
      (⟨.ninf, .fin 115⟩, none) ∧
    ParseRange parseDecimal (ascii "1" ++ ascii "11" ++ ascii "5") (ascii "11") ≠
      (⟨.fin 1, .fin 5⟩, none) := by
  decide

/-- C19, amended: for a delimiter `D` that is not empty and texts `n1`, `n2` that
are not empty, are numbers with the values `x1`, `x2`, and are such that `D` occurs
in `n1 ++ D ++ n2` only between them, `ParseRange(n1 ++ D ++ n2, D)` returns the
range (x1, x2) and no error when `x1 <= x2`, and an error when `x1 > x2`. -/
theorem parseRange_bounded (parseFloat : GoString → F64 × Option NumError)
    (D n1 n2 : GoString) (x1 x2 : F64)
    (hD : D ≠ []) (h1 : n1 ≠ []) (h2 : n2 ≠ [])
    (hp1 : parseFloat n1 = (x1, none)) (hp2 : parseFloat n2 = (x2, none))
    (honce : ∀ p q, p ++ D ++ q = n1 ++ D ++ n2 → p = n1) :
    (x1.le x2 = true → ParseRange parseFloat (n1 ++ D ++ n2) D = (⟨x1, x2⟩, none)) ∧
    (x1.gt x2 = true → (ParseRange parseFloat (n1 ++ D ++ n2) D).2 ≠ none) := by
  rw [parseRange_default parseFloat hD h1 h2 honce hp2, hp1]
  dsimp only
  constructor
  · intro h
    exact newRange_of_not_gt (f64_not_lt_of_le h)
  · intro h
    rw [newRange_of_gt h]
    exact fun h' => Option.noConfusion h'

/-- The text "3:4" of `TestParseFullRange`, and the text "4:3". -/
theorem parseRange_bounded_witness :
    ParseRange parseDecimal (ascii "3" ++ ascii ":" ++ ascii "4") (ascii ":") =
      (⟨.fin 3, .fin 4⟩, none) ∧
    (ParseRange parseDecimal (ascii "4" ++ ascii ":" ++ ascii "3") (ascii ":")).2 ≠ none := by
  have once : ∀ (a b : UInt8), a ≠ 58 → b ≠ 58 →
      ∀ p q : GoString, p ++ [58] ++ q = [a] ++ [58] ++ [b] → p = [a] := by
    intro a b ha hb p q h
    rcases p with _ | ⟨c, _ | ⟨c', p⟩⟩
    · simp at h
      exact absurd h.1.symm ha
    · simp at h
      rw [h.1]
    · simp at h
      rcases p with _ | ⟨c'', p⟩
      · simp at h
        exact absurd h.2.2.1 (fun h' => hb h'.symm)
      · simp at h
  exact
    ⟨(parseRange_bounded parseDecimal (ascii ":") (ascii "3") (ascii "4") (.fin 3) (.fin 4)
        (by decide) (by decide) (by decide) (by decide) (by decide)
        (once 51 52 (by decide) (by decide))).1 (by decide),
      (parseRange_bounded parseDecimal (ascii ":") (ascii "4") (ascii "3") (.fin 4) (.fin 3)
        (by decide) (by decide) (by decide) (by decide) (by decide)
        (once 52 51 (by decide) (by decide))).2 (by decide)⟩

/-- C20: a text `n` that does not contain the delimiter `D` and is a number with
the value `x` is parsed into the range (x, x) without error; and the text `D`
itself is parsed into the range (-Inf, +Inf) without error. -/
theorem parseRange_singleton_and_unbounded
    (parseFloat : GoString → F64 × Option NumError) (D n : GoString) (x : F64)
    (hn : ¬ D <:+: n) (hp : parseFloat n = (x, none)) :
    ParseRange parseFloat n D = (⟨x, x⟩, none) ∧
    ParseRange parseFloat D D = (⟨.ninf, .pinf⟩, none) := by
  refine ⟨?_, parseRange_self parseFloat D⟩
  have hc : stringsContains n D = false := by
    cases h : stringsContains n D
    · rfl
    · exact absurd ((stringsContains_iff n D).mp h) hn
  rw [parseRange_of_absent parseFloat hc hp, newRange_of_not_gt (f64_lt_irrefl x)]

/-- The texts "3" of `TestParseSingularRange` and ":" of `TestParseInfiniteRange`. -/
theorem parseRange_singleton_and_unbounded_witness :
    ParseRange parseDecimal (ascii "3") (ascii ":") = (⟨.fin 3, .fin 3⟩, none) ∧
    ParseRange parseDecimal (ascii ":") (ascii ":") = (⟨.ninf, .pinf⟩, none) :=
  parseRange_singleton_and_unbounded parseDecimal (ascii ":") (ascii "3") (.fin 3)
    (by decide) (by decide)

/-! ## Rounding -/

theorem floor_le_roundHalfEven (x : ℚ) : ⌊x⌋ ≤ roundHalfEven x := by
  unfold roundHalfEven
  split_ifs <;> omega

theorem roundHalfEven_le_floor_add_one (x : ℚ) : roundHalfEven x ≤ ⌊x⌋ + 1 := by
  unfold roundHalfEven
  split_ifs <;> omega

theorem roundHalfEven_intCast (k : ℤ) : roundHalfEven (k : ℚ) = k := by
  unfold roundHalfEven
  simp

theorem le_roundHalfEven {k : ℤ} {x : ℚ} (h : (k : ℚ) ≤ x) : k ≤ roundHalfEven x :=
  (Int.le_floor.mpr h).trans (floor_le_roundHalfEven x)

theorem roundHalfEven_le {k : ℤ} {x : ℚ} (h : x ≤ (k : ℚ)) : roundHalfEven x ≤ k := by
  rcases h.lt_or_eq with h | h
  · have : ⌊x⌋ < k := Int.floor_lt.mpr h
    have := roundHalfEven_le_floor_add_one x
    omega
  · rw [h, roundHalfEven_intCast]

theorem sub_half_le_roundHalfEven (x : ℚ) : x - 1 / 2 ≤ (roundHalfEven x : ℚ) := by
  have h1 := Int.floor_le x
  have h2 := Int.lt_floor_add_one x
  unfold roundHalfEven
  split_ifs with ha hb hc
  · linarith
  · push_cast; linarith
  · linarith
  · push_cast; linarith

theorem two_zpow_pos (n : ℤ) : (0 : ℚ) < 2 ^ n := zpow_pos (by norm_num) n

theorem ulpExponent_ge (q : ℚ) : -1074 ≤ ulpExponent q := by
  unfold ulpExponent
  have := le_max_right (Int.log 2 |q|) (-1022)
  omega

theorem abs_lt_of_ulpExponent (q : ℚ) : |q| < 2 ^ (ulpExponent q + 53) := by
  have h := Int.lt_zpow_succ_log_self (R := ℚ) (b := 2) (by norm_num) |q|
  rw [Nat.cast_ofNat] at h
  refine h.trans_le (zpow_le_zpow_right₀ (by norm_num) ?_)
  unfold ulpExponent
  have := le_max_left (Int.log 2 |q|) (-1022)
  omega

theorem le_abs_of_ulpExponent {q : ℚ} (hq : q ≠ 0) (h : -1074 < ulpExponent q) :
    2 ^ (ulpExponent q + 52) ≤ |q| := by
  have hlog : ulpExponent q + 52 = Int.log 2 |q| := by
    unfold ulpExponent at h ⊢
    rcases max_cases (Int.log 2 |q|) (-1022) with ⟨h1, _⟩ | ⟨h1, _⟩
    · omega
    · omega
  rw [hlog]
  have := Int.zpow_log_le_self (R := ℚ) (b := 2) (by norm_num) (abs_pos.mpr hq)
  rwa [Nat.cast_ofNat] at this

theorem two_zpow_eq_intCast {n : ℤ} (h : 0 ≤ n) : ((2 : ℚ) ^ n) = (((2 : ℤ) ^ n.toNat : ℤ) : ℚ) := by
  obtain ⟨m, rfl⟩ := Int.eq_ofNat_of_zero_le h
  simp

theorem two_zpow_add_53 (E : ℤ) : (2 : ℚ) ^ (E + 53) = 2 ^ (53 : ℕ) * 2 ^ E := by
  rw [add_comm, zpow_add₀ (by norm_num : (2 : ℚ) ≠ 0)]
  norm_num

/-- A multiple of a power of two, from `2 ^ (-1074)` on, by an integer of at most
53 bits, below `2 ^ 1024`, is a float64. -/
theorem roundFloat64_of_dyadic (N E : ℤ) (hE : -1074 ≤ E) (hN : |N| ≤ 2 ^ 53)
    (hlt : |(N : ℚ) * 2 ^ E| < 2 ^ (1024 : ℕ)) :
    roundFloat64 ((N : ℚ) * 2 ^ E) = .fin ((N : ℚ) * 2 ^ E) := by
  by_cases hq : (N : ℚ) * 2 ^ E = 0
  · simp [roundFloat64, hq]
  set q : ℚ := (N : ℚ) * 2 ^ E with hqdef
  have hEpos := two_zpow_pos E
  have hUpos := two_zpow_pos (ulpExponent q)
  have habs : |q| = |(N : ℚ)| * 2 ^ E := by
    rw [hqdef, abs_mul, abs_of_pos hEpos]
  have hNq : |(N : ℚ)| ≤ 2 ^ (53 : ℕ) := by
    rw [← Int.cast_abs]
    exact_mod_cast hN
  -- the quotient by the unit in the last place is an integer
  have hint : ∃ M : ℤ, q / 2 ^ ulpExponent q = (M : ℚ) := by
    by_cases hcase : ulpExponent q ≤ E
    · refine ⟨N * 2 ^ (E - ulpExponent q).toNat, ?_⟩
      have h2 := two_zpow_eq_intCast (n := E - ulpExponent q) (by omega)
      rw [hqdef, mul_div_assoc, ← zpow_sub₀ (by norm_num : (2 : ℚ) ≠ 0), h2]
      push_cast
      rfl
    · have hgt : -1074 < ulpExponent q := by omega
      have h1 := le_abs_of_ulpExponent hq hgt
      have h2 : |q| ≤ 2 ^ (E + 53) := by
        rw [habs, two_zpow_add_53]
        exact mul_le_mul_of_nonneg_right hNq hEpos.le
      have h3 : ulpExponent q + 52 ≤ E + 53 :=
        (zpow_le_zpow_iff_right₀ (by norm_num : (1 : ℚ) < 2)).mp (h1.trans h2)
      have hE' : ulpExponent q = E + 1 := by omega
      have h4 : (2 : ℚ) ^ (53 : ℕ) ≤ |(N : ℚ)| := by
        have h5 : (2 : ℚ) ^ (E + 53) ≤ |q| := by
          have : ulpExponent q + 52 = E + 53 := by omega
          rwa [this] at h1
        rw [habs, two_zpow_add_53] at h5
        exact le_of_mul_le_mul_right h5 hEpos
      have hN53 : |N| = 2 ^ 53 := by
        apply le_antisymm hN
        rw [← Int.cast_abs] at h4
        exact_mod_cast h4
      refine ⟨N / 2, ?_⟩
      have hdiv : N = 2 * (N / 2) := by
        rcases (abs_eq (by norm_num : (0 : ℤ) ≤ 2 ^ 53)).mp hN53 with h | h <;> rw [h] <;> norm_num
      rw [hqdef, hE', zpow_add₀ (by norm_num : (2 : ℚ) ≠ 0), zpow_one]
      have : (N : ℚ) = 2 * ((N / 2 : ℤ) : ℚ) := by exact_mod_cast hdiv
      rw [this]
      field_simp
      ring
  obtain ⟨M, hM⟩ := hint
  have hr : (roundHalfEven (q / 2 ^ ulpExponent q) : ℚ) * 2 ^ ulpExponent q = q := by
    rw [hM, roundHalfEven_intCast, ← hM]
    field_simp
  unfold roundFloat64
  rw [if_neg hq]
  simp only [hr]
  rw [if_neg (not_le.mpr hlt)]

theorem roundFloat64_intCast (n : ℤ) (h : |n| ≤ 2 ^ 53) : roundFloat64 (n : ℚ) = .fin (n : ℚ) := by
  have h1 := roundFloat64_of_dyadic n 0 (by norm_num) h (by
    rw [zpow_zero, mul_one, ← Int.cast_abs]
    have : ((|n| : ℤ) : ℚ) ≤ ((2 ^ 53 : ℤ) : ℚ) := Int.cast_le.mpr h
    refine this.trans_lt ?_
    norm_num)
  simpa using h1

/-- Below `2 ^ 53` the increment of an integer is exact. -/
theorem inc_intCast (n : ℤ) (h1 : -2 ^ 53 ≤ n) (h2 : n < 2 ^ 53) :
    (F64.fin (n : ℚ)).inc = .fin ((n + 1 : ℤ) : ℚ) := by
  have h := roundFloat64_intCast (n + 1) (abs_le.mpr ⟨by omega, by omega⟩)
  unfold F64.inc
  rw [← h]
  push_cast
  rfl

/-- At `2 ^ 53` the increment changes nothing: `2 ^ 53 + 1` lies halfway between
the float64 values `2 ^ 53` and `2 ^ 53 + 2` and is rounded to the even one. -/
theorem inc_two_pow_53 : (F64.fin 9007199254740992).inc = .fin 9007199254740992 := by
  have hE : ulpExponent (9007199254740992 + 1) = 1 := by
    unfold ulpExponent
    have hpos : (0 : ℚ) < |9007199254740992 + 1| := by norm_num
    have h1 : (53 : ℤ) ≤ Int.log 2 |(9007199254740992 + 1 : ℚ)| := by
      rw [← Int.zpow_le_iff_le_log (by norm_num) hpos]
      norm_num
    have h2 : Int.log 2 |(9007199254740992 + 1 : ℚ)| < 54 := by
      rw [← Int.lt_zpow_iff_log_lt (by norm_num) hpos]
      norm_num
    rw [max_eq_left (by omega)]
    omega
  have hfloor : ⌊((9007199254740992 + 1 : ℚ) / 2 ^ (1 : ℤ))⌋ = 4503599627370496 := by
    rw [Int.floor_eq_iff]
    constructor <;> norm_num
  have hround : roundHalfEven ((9007199254740992 + 1 : ℚ) / 2 ^ (1 : ℤ)) = 4503599627370496 := by
    unfold roundHalfEven
    rw [hfloor]
    norm_num
  show roundFloat64 (9007199254740992 + 1) = .fin 9007199254740992
  unfold roundFloat64
  rw [if_neg (by norm_num), hE, hround]
  norm_num

theorem of_isFloat64_fin {q : ℚ} (hq : q ≠ 0) (h : roundFloat64 q = .fin q) :
    (roundHalfEven (q / 2 ^ ulpExponent q) : ℚ) * 2 ^ ulpExponent q = q ∧
      |q| < 2 ^ (1024 : ℕ) := by
  unfold roundFloat64 at h
  rw [if_neg hq] at h
  dsimp only at h
  split_ifs at h with h1
  · have hr : (roundHalfEven (q / 2 ^ ulpExponent q) : ℚ) * 2 ^ ulpExponent q = q := by
      injection h
    refine ⟨hr, ?_⟩
    rw [hr] at h1
    exact not_le.mp h1

/-- Rounding gives a float64. -/
theorem isFloat64_roundFloat64 (q : ℚ) : (roundFloat64 q).IsFloat64 := by
  by_cases hq : q = 0
  · simp [roundFloat64, hq, F64.IsFloat64]
  unfold roundFloat64
  rw [if_neg hq]
  dsimp only
  split_ifs with h1 h2
  · trivial
  · trivial
  · have hpos := two_zpow_pos (ulpExponent q)
    have hlt := abs_lt_of_ulpExponent q
    rw [two_zpow_add_53] at hlt
    have hquot : |q / 2 ^ ulpExponent q| < 2 ^ (53 : ℕ) := by
      rw [abs_div, abs_of_pos hpos, div_lt_iff₀ hpos]
      exact hlt
    have hb := abs_lt.mp hquot
    have hN : |roundHalfEven (q / 2 ^ ulpExponent q)| ≤ 2 ^ 53 := by
      rw [abs_le]
      constructor
      · apply le_roundHalfEven
        push_cast
        exact hb.1.le
      · apply roundHalfEven_le
        push_cast
        exact hb.2.le
    exact roundFloat64_of_dyadic _ _ (ulpExponent_ge q) hN (not_le.mp h1)

theorem isFloat64_inc {x : F64} (h : x.IsFloat64) : x.inc.IsFloat64 := by
  cases x with
  | fin q => exact isFloat64_roundFloat64 (q + 1)
  | nan => exact h
  | ninf => exact h
  | pinf => exact h

theorem ulpExponent_one : ulpExponent 1 = -52 := by
  unfold ulpExponent
  rw [abs_one, Int.log_one_right]
  norm_num

/-- The unit in the last place around `q + 1` is not finer than the one around a
float64 `q`, once it is 4 or more. -/
theorem ulpExponent_add_one_le {q : ℚ} (hq : q ≠ 0) (h : roundFloat64 q = .fin q)
    (hy : q + 1 ≠ 0) (hE2 : 2 ≤ ulpExponent (q + 1)) :
    ulpExponent (q + 1) ≤ ulpExponent q := by
  obtain ⟨hrq, _⟩ := of_isFloat64_fin hq h
  have hEqpos := two_zpow_pos (ulpExponent q)
  have hylow : (2 : ℚ) ^ (ulpExponent (q + 1) + 52) ≤ |q + 1| :=
    le_abs_of_ulpExponent hy (by omega)
  have hyq : |q + 1| ≤ |q| + 1 := (abs_add q 1).trans (by simp)
  have hqlt := abs_lt_of_ulpExponent q
  by_contra hcon
  push_neg at hcon
  by_cases hEq0 : ulpExponent q ≤ 0
  · have h1 : (2 : ℚ) ^ (ulpExponent q + 53) ≤ 2 ^ (53 : ℤ) :=
      zpow_le_zpow_right₀ (by norm_num) (by omega)
    have h2 : (2 : ℚ) ^ (54 : ℤ) ≤ 2 ^ (ulpExponent (q + 1) + 52) :=
      zpow_le_zpow_right₀ (by norm_num) (by omega)
    have h3 : (2 : ℚ) ^ (53 : ℤ) + 1 < 2 ^ (54 : ℤ) := by norm_num
    linarith
  · have habsq : |q| = |(roundHalfEven (q / 2 ^ ulpExponent q) : ℚ)| * 2 ^ ulpExponent q := by
      have := congrArg abs hrq
      rw [abs_mul, abs_of_pos hEqpos] at this
      exact this.symm
    have hNlt : |(roundHalfEven (q / 2 ^ ulpExponent q) : ℚ)| < 2 ^ (53 : ℕ) := by
      rw [two_zpow_add_53, habsq] at hqlt
      exact lt_of_mul_lt_mul_right hqlt hEqpos.le
    have hNle : |(roundHalfEven (q / 2 ^ ulpExponent q) : ℚ)| ≤ 2 ^ (53 : ℕ) - 1 := by
      rw [← Int.cast_abs] at hNlt ⊢
      have h1 : |roundHalfEven (q / 2 ^ ulpExponent q)| < 2 ^ 53 := by exact_mod_cast hNlt
      have h2 : |roundHalfEven (q / 2 ^ ulpExponent q)| ≤ 2 ^ 53 - 1 := by omega
      exact_mod_cast h2
    have h1 : |q| ≤ 2 ^ (ulpExponent q + 53) - 2 ^ ulpExponent q := by
      rw [habsq, two_zpow_add_53]
      have := mul_le_mul_of_nonneg_right hNle hEqpos.le
      linarith
    have h2 : (2 : ℚ) ^ (ulpExponent q + 53) ≤ 2 ^ (ulpExponent (q + 1) + 52) :=
      zpow_le_zpow_right₀ (by norm_num) (by omega)
    have h3 : (2 : ℚ) ^ (1 : ℤ) ≤ 2 ^ ulpExponent q :=
      zpow_le_zpow_right₀ (by norm_num) (by omega)
    rw [zpow_one] at h3
    linarith

/-- Rounding `q + 1` does not go below a float64 `q`. -/
theorem le_round_add_one {q : ℚ} (h : roundFloat64 q = .fin q) (hy : q + 1 ≠ 0) :
    q ≤ (roundHalfEven ((q + 1) / 2 ^ ulpExponent (q + 1)) : ℚ) * 2 ^ ulpExponent (q + 1) := by
  have hEpos := two_zpow_pos (ulpExponent (q + 1))
  by_cases hcase : ulpExponent (q + 1) ≤ 1
  · have h2 : (2 : ℚ) ^ ulpExponent (q + 1) ≤ 2 := by
      have := zpow_le_zpow_right₀ (by norm_num : (1 : ℚ) ≤ 2) hcase
      rwa [zpow_one] at this
    have h3 := sub_half_le_roundHalfEven ((q + 1) / 2 ^ ulpExponent (q + 1))
    have h4 := mul_le_mul_of_nonneg_right h3 hEpos.le
    have h5 : ((q + 1) / 2 ^ ulpExponent (q + 1) - 1 / 2) * 2 ^ ulpExponent (q + 1) =
        (q + 1) - 2 ^ ulpExponent (q + 1) / 2 := by
      field_simp
      ring
    rw [h5] at h4
    linarith
  · have hE2 : 2 ≤ ulpExponent (q + 1) := by omega
    have hq0 : q ≠ 0 := by
      intro hq
      rw [hq, zero_add, ulpExponent_one] at hE2
      omega
    obtain ⟨hrq, _⟩ := of_isFloat64_fin hq0 h
    have hEle := ulpExponent_add_one_le hq0 h hy hE2
    have hpow := two_zpow_eq_intCast (n := ulpExponent q - ulpExponent (q + 1)) (by omega)
    have hK : q / 2 ^ ulpExponent (q + 1) =
        ((roundHalfEven (q / 2 ^ ulpExponent q) *
          2 ^ (ulpExponent q - ulpExponent (q + 1)).toNat : ℤ) : ℚ) := by
      have hpow' : (2 : ℚ) ^ (ulpExponent q - ulpExponent (q + 1)) =
          (2 : ℚ) ^ (ulpExponent q - ulpExponent (q + 1)).toNat := by
        rw [hpow]
        push_cast
        rfl
      push_cast
      rw [← hpow', zpow_sub₀ (by norm_num : (2 : ℚ) ≠ 0), ← mul_div_assoc, hrq]
    have hle : q / 2 ^ ulpExponent (q + 1) ≤ (q + 1) / 2 ^ ulpExponent (q + 1) :=
      div_le_div_of_nonneg_right (by linarith) hEpos.le
    rw [hK] at hle
    have hKN := le_roundHalfEven hle
    have hKN' : ((roundHalfEven (q / 2 ^ ulpExponent q) *
          2 ^ (ulpExponent q - ulpExponent (q + 1)).toNat : ℤ) : ℚ) ≤
        (roundHalfEven ((q + 1) / 2 ^ ulpExponent (q + 1)) : ℚ) := Int.cast_le.mpr hKN
    rw [← hK] at hKN'
    have := mul_le_mul_of_nonneg_right hKN' hEpos.le
    rwa [div_mul_cancel₀ _ hEpos.ne'] at this

/-- The increment of a float64 is not below it. -/
theorem le_inc {x : F64} (hx : x.IsFloat64) (hn : x ≠ .nan) : x.le x.inc = true := by
  cases x with
  | nan => exact absurd rfl hn
  | ninf => rfl
  | pinf => rfl
  | fin q =>
    have h : roundFloat64 q = .fin q := hx
    show (F64.fin q).le (roundFloat64 (q + 1)) = true
    by_cases hy : q + 1 = 0
    · have hq : q = -1 := by linarith
      subst hq
      simp [roundFloat64, F64.le]
    have hA := le_round_add_one h hy
    unfold roundFloat64
    rw [if_neg hy]
    dsimp only
    split_ifs with h1 h2
    · rfl
    · exfalso
      have hEpos := two_zpow_pos (ulpExponent (q + 1))
      have hylt : q + 1 < 0 := lt_of_le_of_ne (not_lt.mp h2) hy
      have hq0 : q ≠ 0 := by
        intro hq
        rw [hq] at hylt
        norm_num at hylt
      obtain ⟨_, hqlt⟩ := of_isFloat64_fin hq0 h
      have hN : roundHalfEven ((q + 1) / 2 ^ ulpExponent (q + 1)) ≤ 0 := by
        apply roundHalfEven_le
        push_cast
        exact div_nonpos_of_nonpos_of_nonneg hylt.le hEpos.le
      have hr0 : (roundHalfEven ((q + 1) / 2 ^ ulpExponent (q + 1)) : ℚ) *
          2 ^ ulpExponent (q + 1) ≤ 0 :=
        mul_nonpos_of_nonpos_of_nonneg (by exact_mod_cast hN) hEpos.le
      rw [abs_of_nonpos hr0] at h1
      rw [abs_of_neg (by linarith : q < 0)] at hqlt
      linarith
    · simp [F64.le, hA]

/-! ## The loop of `values` and `valuesInRange` -/

theorem valuesLoop_map (fn : F64 → F64) (stop : F64) (steps : Nat) (i : F64) :
    valuesLoop fn stop steps i =
      (valuesLoop (fun v => v) stop steps i).map (List.map fn) := by
  induction steps generalizing i with
  | zero => rfl
  | succ n ih =>
    unfold valuesLoop
    split_ifs
    · rw [ih i.inc]
      cases valuesLoop (fun v => v) stop n i.inc <;> rfl
    · rfl

theorem valuesLoop_of_not_le (fn : F64 → F64) {stop i : F64} (h : i.le stop = false)
    (steps : Nat) : valuesLoop fn stop (steps + 1) i = some [] := by
  simp [valuesLoop, h]

theorem valuesLoop_stuck (fn : F64 → F64) {stop i : F64} (hinc : i.inc = i)
    (h : i.le stop = true) (steps : Nat) : valuesLoop fn stop steps i = none := by
  induction steps with
  | zero => rfl
  | succ n ih =>
    unfold valuesLoop
    rw [if_pos h, hinc, ih]
    rfl

theorem valuesLoop_bounds {stop : F64} (steps : Nat) (i : F64) (hi : i.IsFloat64)
    (out : List F64) (h : valuesLoop (fun v => v) stop steps i = some out) :
    ∀ v ∈ out, i.le v = true ∧ v.le stop = true := by
  induction steps generalizing i out with
  | zero => cases h
  | succ n ih =>
    unfold valuesLoop at h
    split_ifs at h with hle
    · cases hrest : valuesLoop (fun v => v) stop n i.inc with
      | none => rw [hrest] at h; cases h
      | some rest =>
        rw [hrest] at h
        have hout : out = i :: rest := by
          simp only [Option.map_some', Option.some.injEq] at h
          exact h.symm
        have hin := (f64_le_ne_nan hle).1
        intro v hv
        rw [hout] at hv
        rcases List.mem_cons.mp hv with hv | hv
        · rw [hv]
          exact ⟨f64_le_refl hin, hle⟩
        · have := ih i.inc (isFloat64_inc hi) rest hrest v hv
          exact ⟨f64_le_trans (le_inc hi hin) this.1, this.2⟩
    · simp only [Option.some.injEq] at h
      intro v hv
      rw [← h] at hv
      cases hv

theorem valuesLoop_intCast (k : Nat) (m : ℤ) (steps : Nat) (h1 : -2 ^ 53 ≤ m)
    (h2 : m + k ≤ 2 ^ 53) (hk : k < steps) :
    valuesLoop (fun v => v) (.fin ((m + k - 1 : ℤ) : ℚ)) steps (.fin (m : ℚ)) =
      some ((List.range k).map (fun (j : ℕ) => F64.fin ((m + (j : ℤ) : ℤ) : ℚ))) := by
  induction k generalizing m steps with
  | zero =>
    obtain ⟨n, rfl⟩ : ∃ n, steps = n + 1 := ⟨steps - 1, by omega⟩
    rw [valuesLoop_of_not_le]
    · rfl
    · simp [F64.le]
  | succ k ih =>
    obtain ⟨n, rfl⟩ : ∃ n, steps = n + 1 := ⟨steps - 1, by omega⟩
    have hle : (F64.fin (m : ℚ)).le (.fin ((m + ((k + 1 : ℕ) : ℤ) - 1 : ℤ) : ℚ)) = true := by
      simp only [F64.le, decide_eq_true_eq, Int.cast_le]
      push_cast
      omega
    unfold valuesLoop
    rw [if_pos hle, inc_intCast m h1 (by push_cast at h2; omega)]
    have hstop : (m + ((k + 1 : ℕ) : ℤ) - 1 : ℤ) = (m + 1) + (k : ℤ) - 1 := by
      push_cast
      ring
    rw [hstop, ih (m + 1) n (by omega) (by push_cast at h2 ⊢; omega) (by omega)]
    simp only [Option.map_some', Option.some.injEq]
    rw [List.range_succ_eq_map]
    simp only [List.map_cons, List.map_map, CharP.cast_eq_zero, add_zero, List.cons.injEq,
      true_and]
    apply List.map_congr_left
    intro j _
    show F64.fin ((m + 1 + (j : ℤ) : ℤ) : ℚ) = F64.fin ((m + ((j + 1 : ℕ) : ℤ) : ℤ) : ℚ)
    congr 2
    push_cast
    ring

/-! ## `values` and `valuesInRange` -/

theorem f64_ninf_le {x : F64} (h : x ≠ .nan) : F64.le .ninf x = true := by
  cases x <;> simp_all [F64.le]

theorem mathMax_eq_or (x y : F64) : mathMax x y = x ∨ mathMax x y = y := by
  cases x <;> cases y <;> simp [mathMax]
  rename_i a b
  cases (F64.fin a).gt (F64.fin b) <;> simp

theorem isFloat64_mathMax {x y : F64} (hx : x.IsFloat64) (hy : y.IsFloat64) :
    (mathMax x y).IsFloat64 := by
  rcases mathMax_eq_or x y with h | h <;> rw [h] <;> assumption

theorem values_map (steps : Nat) (r : Range) (fn : F64 → F64) :
    r.values steps fn = (r.values steps (fun v => v)).map (List.map fn) := by
  unfold Range.values
  split_ifs
  · rfl
  · rfl
  · exact valuesLoop_map fn _ steps _

theorem valuesInRange_map (steps : Nat) (r other : Range) (fn : F64 → F64) :
    r.valuesInRange steps other fn =
      (r.valuesInRange steps other (fun v => v)).map (List.map fn) := by
  unfold Range.valuesInRange
  split_ifs
  · rfl
  · rfl
  · exact values_map steps r fn
  · rfl
  · exact valuesLoop_map fn _ steps _
  · rfl
  · exact valuesLoop_map fn _ steps _
  · exact valuesLoop_map fn _ steps _

theorem both_of_bounds {r other : Range} {v : F64} (h1 : r.Start.le v = true)
    (h2 : other.Start.le v = true) (h3 : v.le r.End = true) (h4 : v.le other.End = true) :
    r.Contains v = true ∧ other.Contains v = true :=
  ⟨(contains_iff r v).mpr ⟨h1, h3⟩, (contains_iff other v).mpr ⟨h2, h4⟩⟩

theorem window_both {r other : Range} {i stop : F64} (h1 : r.Start.le i = true)
    (h2 : other.Start.le i = true) (h3 : stop.le r.End = true)
    (h4 : stop.le other.End = true) (v : F64) (hi : i.le v = true) (hs : v.le stop = true) :
    r.Contains v = true ∧ other.Contains v = true :=
  both_of_bounds (f64_le_trans h1 hi) (f64_le_trans h2 hi) (f64_le_trans hs h3)
    (f64_le_trans hs h4)

/-- What `valuesInRange` returns on two ranges with `Start <= End`: nothing, or two
values that lie in both ranges, or the values of the loop over a window that lies
in both ranges. -/
theorem valuesInRange_shape (steps : Nat) (r other : Range) (fn : F64 → F64)
    (hr : r.Start.le r.End = true) (ho : other.Start.le other.End = true)
    (hrf : r.Start.IsFloat64) (hof : other.Start.IsFloat64) :
    r.valuesInRange steps other fn = some [] ∨
    (∃ a b, r.valuesInRange steps other fn = some [fn a, fn b] ∧
      (r.Contains a = true ∧ other.Contains a = true) ∧
      (r.Contains b = true ∧ other.Contains b = true)) ∨
    (∃ i stop, r.valuesInRange steps other fn = valuesLoop fn stop steps i ∧ i.IsFloat64 ∧
      ∀ v, i.le v = true → v.le stop = true →
        r.Contains v = true ∧ other.Contains v = true) := by
  have hrs := (f64_le_ne_nan hr).1
  have hre := (f64_le_ne_nan hr).2
  have hos := (f64_le_ne_nan ho).1
  have hoe := (f64_le_ne_nan ho).2
  have rss := f64_le_refl hrs
  have ree := f64_le_refl hre
  have oss := f64_le_refl hos
  have oee := f64_le_refl hoe
  have hmin_r := mathMin_le_right hoe hre
  have hmin_o := mathMin_le_left hoe hre
  have hmax_r := le_mathMax_right hos hrs
  have hmax_o := le_mathMax_left hos hrs
  have hminn := mathMin_ne_nan hoe hre
  have hmaxn := mathMax_ne_nan hos hrs
  unfold Range.valuesInRange
  by_cases hov : r.Overlap other = true
  swap
  · left
    simp [hov]
  simp only [hov, Bool.not_true, Bool.false_eq_true, if_false, Range.Infinite, Range.values]
  by_cases os : other.Start.eq .ninf = true
  · have hos' := (f64_eq_iff.mp os).1
    by_cases oe : other.End.eq .pinf = true
    · have hoe' := (f64_eq_iff.mp oe).1
      by_cases rs : r.Start.eq .ninf = true
      · have hrs' := (f64_eq_iff.mp rs).1
        by_cases re : r.End.eq .pinf = true
        · have hre' := (f64_eq_iff.mp re).1
          right; left
          refine ⟨.ninf, .pinf, by simp [os, oe, rs, re], ?_, ?_⟩
          · exact both_of_bounds (hrs' ▸ rss) (hos' ▸ oss) (f64_ninf_le hre) (f64_ninf_le hoe)
          · exact both_of_bounds (f64_le_pinf hrs) (f64_le_pinf hos) (hre' ▸ ree) (hoe' ▸ oee)
        · right; left
          refine ⟨.ninf, r.End, by simp [os, oe, rs, re], ?_, ?_⟩
          · exact both_of_bounds (hrs' ▸ rss) (hos' ▸ oss) (f64_ninf_le hre) (f64_ninf_le hoe)
          · exact both_of_bounds hr (hos' ▸ f64_ninf_le hre) ree (hoe' ▸ f64_le_pinf hre)
      · by_cases re : r.End.eq .pinf = true
        · have hre' := (f64_eq_iff.mp re).1
          right; left
          refine ⟨r.Start, .pinf, by simp [os, oe, rs, re], ?_, ?_⟩
          · exact both_of_bounds rss (hos' ▸ f64_ninf_le hrs) hr (hoe' ▸ f64_le_pinf hrs)
          · exact both_of_bounds (f64_le_pinf hrs) (f64_le_pinf hos) (hre' ▸ ree) (hoe' ▸ oee)
        · right; right
          refine ⟨r.Start, r.End, by simp [os, oe, rs, re], hrf, ?_⟩
          exact window_both rss (hos' ▸ f64_ninf_le hrs) ree (hoe' ▸ f64_le_pinf hre)
    · by_cases rs : r.Start.eq .ninf = true
      · have hrs' := (f64_eq_iff.mp rs).1
        right; left
        refine ⟨.ninf, mathMin other.End r.End, by simp [os, oe, rs], ?_, ?_⟩
        · exact both_of_bounds (hrs' ▸ rss) (hos' ▸ oss) (f64_ninf_le hre) (f64_ninf_le hoe)
        · exact both_of_bounds (hrs' ▸ f64_ninf_le hminn) (hos' ▸ f64_ninf_le hminn)
            hmin_r hmin_o
      · right; right
        refine ⟨r.Start, mathMin other.End r.End, by simp [os, oe, rs], hrf, ?_⟩
        exact window_both rss (hos' ▸ f64_ninf_le hrs) hmin_r hmin_o
  · by_cases oe : other.End.eq .pinf = true
    · have hoe' := (f64_eq_iff.mp oe).1
      by_cases re : r.End.eq .pinf = true
      · have hre' := (f64_eq_iff.mp re).1
        right; left
        refine ⟨mathMax other.Start r.Start, .pinf, by simp [os, oe, re], ?_, ?_⟩
        · exact both_of_bounds hmax_r hmax_o (hre' ▸ f64_le_pinf hmaxn)
            (hoe' ▸ f64_le_pinf hmaxn)
        · exact both_of_bounds (f64_le_pinf hrs) (f64_le_pinf hos) (hre' ▸ ree) (hoe' ▸ oee)
      · right; right
        refine ⟨mathMax other.Start r.Start, r.End, by simp [os, oe, re],
          isFloat64_mathMax hof hrf, ?_⟩
        exact window_both hmax_r hmax_o ree (hoe' ▸ f64_le_pinf hre)
    · right; right
      refine ⟨mathMax other.Start r.Start, mathMin other.End r.End, by simp [os, oe],
        isFloat64_mathMax hof hrf, ?_⟩
      exact window_both hmax_r hmax_o hmin_r hmin_o

theorem isFloat64_intCast (n : ℤ) (h : |n| ≤ 2 ^ 53) : (F64.fin (n : ℚ)).IsFloat64 :=
  roundFloat64_intCast n h

/-- C13, at the range (2^53, 2^53): its bounds are finite, integral and equal, and
`2 ^ 53` is a float64, so the list to return is the single value `2 ^ 53`; yet
`i++` leaves `2 ^ 53` as it is, `i <= r.End` stays true, and `Values` returns
after no number of steps. -/
theorem values_never_returns_at_two_pow_53 :
    (F64.fin 9007199254740992).IsFloat64 ∧
    (F64.fin 9007199254740992).le (.fin 9007199254740992) = true ∧
    (F64.fin 9007199254740992).inc = .fin 9007199254740992 ∧
    ¬ ∃ steps out,
      (⟨.fin 9007199254740992, .fin 9007199254740992⟩ : Range).Values steps = some out := by
  refine ⟨?_, by simp [F64.le], inc_two_pow_53, ?_⟩
  · have := isFloat64_intCast 9007199254740992 (by norm_num)
    simpa using this
  · rintro ⟨steps, out, h⟩
    have hle : (F64.fin 9007199254740992).le (.fin 9007199254740992) = true := by
      simp [F64.le]
    have hnone := valuesLoop_stuck (fun v => v) inc_two_pow_53 hle steps
    have heq : (⟨.fin 9007199254740992, .fin 9007199254740992⟩ : Range).Values steps =
        valuesLoop (fun v => v) (.fin 9007199254740992) steps (.fin 9007199254740992) := by
      simp [Range.Values, Range.values, F64.eq]
    rw [heq, hnone] at h
    cases h

/-- The three cases of `Values` where the loop ends: of a range that starts at
negative infinity it is `[-Inf, End]`; otherwise, of a range that ends at
positive infinity, it is `[Start, +Inf]`; and for integers `s <= e` from
`-2 ^ 53` on and below `2 ^ 53` it is `s, s + 1, ..., e`, returned once the loop
is given more steps than these `e - s + 1` values. -/
theorem values_cases :
    (∀ (e : F64) (steps : Nat), (⟨.ninf, e⟩ : Range).Values steps = some [.ninf, e]) ∧
    (∀ (s : F64) (steps : Nat), s ≠ .ninf →
      (⟨s, .pinf⟩ : Range).Values steps = some [s, .pinf]) ∧
    (∀ (s e : ℤ) (steps : Nat), s ≤ e → -2 ^ 53 ≤ s → e < 2 ^ 53 →
      (e - s + 1).toNat < steps →
      (⟨.fin (s : ℚ), .fin (e : ℚ)⟩ : Range).Values steps =
        some ((List.range (e - s + 1).toNat).map
          (fun (j : ℕ) => F64.fin ((s + (j : ℤ) : ℤ) : ℚ)))) := by
  refine ⟨?_, ?_, ?_⟩
  · intro e steps
    simp [Range.Values, Range.values, F64.eq]
  · intro s steps hs
    have h1 : s.eq .ninf = false := by
      cases h : s.eq .ninf
      · rfl
      · exact absurd (f64_eq_iff.mp h).1 hs
    have h2 : F64.eq .pinf .pinf = true := rfl
    simp [Range.Values, Range.values, h1, h2]
  · intro s e steps hse h1 h2 hsteps
    have hk : ((e - s + 1).toNat : ℤ) = e - s + 1 := Int.toNat_of_nonneg (by omega)
    have hloop := valuesLoop_intCast (e - s + 1).toNat s steps h1 (by omega) hsteps
    have hstop : s + ((e - s + 1).toNat : ℤ) - 1 = e := by omega
    rw [hstop] at hloop
    simp only [Range.Values, Range.values, F64.eq, Bool.false_eq_true, if_false]
    exact hloop

/-- The ranges of `TestInfiniteStartRangeValues`, `TestInfiniteEndRangeValues` and
`TestFiniteRangeValues`. -/
theorem values_cases_witness :
    (⟨.ninf, .fin 3⟩ : Range).Values 0 = some [.ninf, .fin 3] ∧
    (⟨.fin 1, .pinf⟩ : Range).Values 0 = some [.fin 1, .pinf] ∧
    (⟨.fin ((1 : ℤ) : ℚ), .fin ((3 : ℤ) : ℚ)⟩ : Range).Values 4 =
      some ((List.range ((3 : ℤ) - 1 + 1).toNat).map
        (fun (j : ℕ) => F64.fin (((1 : ℤ) + (j : ℤ) : ℤ) : ℚ))) :=
  ⟨values_cases.1 (.fin 3) 0, values_cases.2.1 (.fin 1) 0 (by decide),
    values_cases.2.2 1 3 4 (by decide) (by decide) (by decide) (by decide)⟩

/-- C14: `ValueMap(f)` is `f` applied to each value of `Values()`, in order, and
`MapValueInRange(other, f)` is `f` applied to each value of
`ValuesInRange(other)`, in order; with the same bound on the steps of the loop,
either both return or neither does. -/
theorem valueMap_eq_map_values (steps : Nat) (r : Range) (f : F64 → F64) :
    r.ValueMap steps f = (r.Values steps).map (List.map f) ∧
    ∀ other, r.MapValueInRange steps other f =
      (r.ValuesInRange steps other).map (List.map f) :=
  ⟨values_map steps r f, fun other => valuesInRange_map steps r other f⟩

/-- C15: for two ranges with `Start <= End` whose starts are float64 values, every
value that `ValuesInRange` returns is contained in both ranges; and when no value
is contained in both, `ValuesInRange` returns the empty list, at the first test
of its loop at the latest. -/
theorem valuesInRange_common (r other : Range)
    (hr : r.Start.le r.End = true) (ho : other.Start.le other.End = true)
    (hrf : r.Start.IsFloat64) (hof : other.Start.IsFloat64) :
    (∀ steps out, r.ValuesInRange steps other = some out →
      ∀ v ∈ out, r.Contains v = true ∧ other.Contains v = true) ∧
    ((¬ ∃ v, r.Contains v = true ∧ other.Contains v = true) →
      ∀ steps, r.ValuesInRange (steps + 1) other = some []) := by
  constructor
  · intro steps out hout v hv
    unfold Range.ValuesInRange at hout
    rcases valuesInRange_shape steps r other (fun v => v) hr ho hrf hof with
      h | ⟨a, b, h, ha, hb⟩ | ⟨i, stop, h, hi, hw⟩
    · rw [h] at hout
      cases hout
      cases hv
    · rw [h] at hout
      cases hout
      rcases List.mem_cons.mp hv with hv | hv
      · rw [hv]; exact ha
      · rw [List.mem_singleton.mp hv]; exact hb
    · rw [h] at hout
      have := valuesLoop_bounds steps i hi out hout v hv
      exact hw v this.1 this.2
  · intro hnone steps
    unfold Range.ValuesInRange
    rcases valuesInRange_shape (steps + 1) r other (fun v => v) hr ho hrf hof with
      h | ⟨a, b, _, ha, _⟩ | ⟨i, stop, h, _, hw⟩
    · exact h
    · exact absurd ⟨a, ha⟩ hnone
    · rw [h]
      cases hle : i.le stop
      · exact valuesLoop_of_not_le _ hle steps
      · exact absurd ⟨i, hw i (f64_le_refl (f64_le_ne_nan hle).1) hle⟩ hnone

/-- The ranges (4, +Inf) and (-Inf, 3) of `TestInfiniteEndRangeValuesInRange`, which
share no value. -/
theorem valuesInRange_common_witness :
    (∀ steps out, (⟨.fin 4, .pinf⟩ : Range).ValuesInRange steps ⟨.ninf, .fin 3⟩ = some out →
      ∀ v ∈ out, (⟨.fin 4, .pinf⟩ : Range).Contains v = true ∧
        (⟨.ninf, .fin 3⟩ : Range).Contains v = true) ∧
    ((¬ ∃ v, (⟨.fin 4, .pinf⟩ : Range).Contains v = true ∧
        (⟨.ninf, .fin 3⟩ : Range).Contains v = true) →
      ∀ steps, (⟨.fin 4, .pinf⟩ : Range).ValuesInRange (steps + 1) ⟨.ninf, .fin 3⟩ = some []) :=
  valuesInRange_common ⟨.fin 4, .pinf⟩ ⟨.ninf, .fin 3⟩ (by decide) (by decide)
    (by simpa using isFloat64_intCast 4 (by norm_num)) trivial

/-! ## `ParseRangeCollection` -/

theorem parseCollectionLoop_spec (parseFloat : GoString → F64 × Option NumError)
    (delimiter : GoString) (texts : List GoString) (rcollection : RangeCollection) :
    ((∀ t ∈ texts, (ParseRange parseFloat t delimiter).2 = none) ∧
      parseCollectionLoop parseFloat delimiter rcollection texts =
        (rcollection ++ texts.map (fun t => (ParseRange parseFloat t delimiter).1), none)) ∨
    (∃ pre t post err, texts = pre ++ t :: post ∧
      (∀ u ∈ pre, (ParseRange parseFloat u delimiter).2 = none) ∧
      (ParseRange parseFloat t delimiter).2 = some err ∧
      parseCollectionLoop parseFloat delimiter rcollection texts =
        (rcollection ++ pre.map (fun u => (ParseRange parseFloat u delimiter).1), some err)) := by
  induction texts generalizing rcollection with
  | nil =>
    left
    exact ⟨fun t ht => (by cases ht), by simp [parseCollectionLoop]⟩
  | cons s rest ih =>
    cases hs : ParseRange parseFloat s delimiter with
    | mk grange e =>
      cases e with
      | some err =>
        right
        refine ⟨[], s, rest, err, rfl, fun u hu => (by cases hu), (by rw [hs]), ?_⟩
        simp [parseCollectionLoop, hs]
      | none =>
        have hstep : parseCollectionLoop parseFloat delimiter rcollection (s :: rest) =
            parseCollectionLoop parseFloat delimiter (rcollection ++ [grange]) rest := by
          simp [parseCollectionLoop, hs]
        rcases ih (rcollection ++ [grange]) with ⟨hall, hres⟩ | ⟨pre, t, post, err, hsplit, hpre, ht, hres⟩
        · left
          refine ⟨?_, ?_⟩
          · intro t ht
            rcases List.mem_cons.mp ht with h | h
            · rw [h, hs]
            · exact hall t h
          · rw [hstep, hres]
            simp [hs]
        · right
          refine ⟨s :: pre, t, post, err, by rw [hsplit]; rfl, ?_, ht, ?_⟩
          · intro u hu
            rcases List.mem_cons.mp hu with h | h
            · rw [h, hs]
            · exact hpre u h
          · rw [hstep, hres]
            simp [hs]

/-- C21: `ParseRangeCollection(texts, D)` returns no error exactly when
`ParseRange(t, D)` returns no error for every text `t`, and then it returns the
parsed ranges in the order of the texts; when `t` is the first text for which
`ParseRange` returns an error, it returns that error. -/
theorem parseRangeCollection_result (parseFloat : GoString → F64 × Option NumError)
    (texts : List GoString) (D : GoString) :
    ((ParseRangeCollection parseFloat texts D).2 = none ↔
      ∀ t ∈ texts, (ParseRange parseFloat t D).2 = none) ∧
    ((ParseRangeCollection parseFloat texts D).2 = none →
      (ParseRangeCollection parseFloat texts D).1 =
        texts.map (fun t => (ParseRange parseFloat t D).1)) ∧
    (∀ pre t post err, texts = pre ++ t :: post →
      (∀ u ∈ pre, (ParseRange parseFloat u D).2 = none) →
      (ParseRange parseFloat t D).2 = some err →
      (ParseRangeCollection parseFloat texts D).2 = some err) := by
  unfold ParseRangeCollection
  rcases parseCollectionLoop_spec parseFloat D texts [] with
    ⟨hall, hres⟩ | ⟨pre, t, post, err, hsplit, hpre, ht, hres⟩
  · rw [hres]
    refine ⟨⟨fun _ => hall, fun _ => rfl⟩, fun _ => by simp, ?_⟩
    intro pre t post err hsplit _ ht
    have := hall t (by rw [hsplit]; simp)
    rw [this] at ht
    cases ht
  · rw [hres]
    refine ⟨⟨fun h => (by cases h), fun h => ?_⟩, fun h => (by cases h), ?_⟩
    · have := h t (by rw [hsplit]; simp)
      rw [this] at ht
      cases ht
    · intro pre' t' post' err' hsplit' hpre' ht'
      -- the first failing text is determined by the list
      have key : ∀ (l : List GoString) (p p' : List GoString) (a a' : GoString)
          (q q' : List GoString), l = p ++ a :: q → l = p' ++ a' :: q' →
          (∀ u ∈ p, (ParseRange parseFloat u D).2 = none) →
          (∀ u ∈ p', (ParseRange parseFloat u D).2 = none) →
          (ParseRange parseFloat a D).2 ≠ none → (ParseRange parseFloat a' D).2 ≠ none →
          a = a' := by
        intro l
        induction l with
        | nil =>
          intro p p' a a' q q' h
          simp at h
        | cons x l ih =>
          intro p p' a a' q q' h h' hp hp' ha ha'
          cases p with
          | nil =>
            cases p' with
            | nil =>
              simp at h h'
              rw [← h.1, ← h'.1]
            | cons y p' =>
              simp at h h'
              exact absurd (hp' y (List.mem_cons_self _ _)) (by rw [← h'.1, h.1]; exact ha)
          | cons y p =>
            cases p' with
            | nil =>
              simp at h h'
              exact absurd (hp y (List.mem_cons_self _ _)) (by rw [← h.1, h'.1]; exact ha')
            | cons y' p' =>
              simp at h h'
              exact ih p p' a a' q q' h.2 h'.2
                (fun u hu => hp u (List.mem_cons_of_mem _ hu))
                (fun u hu => hp' u (List.mem_cons_of_mem _ hu)) ha ha'
      have heq := key texts pre pre' t t' post post' hsplit hsplit' hpre hpre'
        (by rw [ht]; exact fun h => Option.noConfusion h)
        (by rw [ht']; exact fun h => Option.noConfusion h)
      rw [heq] at ht
      rw [ht] at ht'
      exact ht'

/-- The texts "1:2", "4:" of `TestParseNonEmptyRangeCollection` are all parsed; of
the texts "1:2", "a", "4:3" the first that fails is "a". -/
theorem parseRangeCollection_result_witness :
    (ParseRangeCollection parseDecimal [ascii "1:2", ascii "4:"] (ascii ":")).1 =
      [ascii "1:2", ascii "4:"].map (fun t => (ParseRange parseDecimal t (ascii ":")).1) ∧
    (ParseRangeCollection parseDecimal [ascii "1:2", ascii "a", ascii "4:3"] (ascii ":")).2 =
      some (.parsing (ascii "a") (ascii ":") (some .badText)) :=
  ⟨(parseRangeCollection_result parseDecimal [ascii "1:2", ascii "4:"] (ascii ":")).2.1
      (by decide),
    (parseRangeCollection_result parseDecimal [ascii "1:2", ascii "a", ascii "4:3"]
      (ascii ":")).2.2 [ascii "1:2"] (ascii "a") [ascii "4:3"] _ (by decide) (by decide)
      (by decide)⟩

/-! ## `EachValue` and the values of a collection -/

theorem eachLoop_append (stop : F64) (steps : Nat) (i : F64) (st : List F64) :
    eachLoop (fun values value => values ++ [value]) stop steps i st =
      (valuesLoop (fun v => v) stop steps i).map (fun out => st ++ out) := by
  induction steps generalizing i st with
  | zero => rfl
  | succ n ih =>
    unfold eachLoop valuesLoop
    split_ifs
    · rw [ih i.inc (st ++ [i])]
      cases valuesLoop (fun v => v) stop n i.inc with
      | none => rfl
      | some rest => simp
    · simp

theorem eachValue_append (steps : Nat) (r : Range) (st : List F64) :
    r.EachValue steps (fun values value => values ++ [value]) st =
      (r.Values steps).map (fun out => st ++ out) := by
  unfold Range.EachValue Range.Values Range.values
  split_ifs
  · simp
  · simp
  · exact eachLoop_append _ steps _ st

theorem eachValueInRange_append (steps : Nat) (r other : Range) (st : List F64) :
    r.EachValueInRange steps other (fun values value => values ++ [value]) st =
      (r.ValuesInRange steps other).map (fun out => st ++ out) := by
  unfold Range.EachValueInRange Range.ValuesInRange Range.valuesInRange
  split_ifs
  · simp
  · simp
  · exact eachValue_append steps r st
  · simp
  · exact eachLoop_append _ steps _ st
  · simp
  · exact eachLoop_append _ steps _ st
  · exact eachLoop_append _ steps _ st

theorem collectValues_eq (steps : Nat) (l : List Range) (st : List F64) :
    collectValues steps l st =
      (concatOver (fun r => r.Values steps) l).map (fun out => st ++ out) := by
  induction l generalizing st with
  | nil => simp [collectValues, concatOver]
  | cons r rest ih =>
    unfold collectValues concatOver
    rw [eachValue_append]
    cases r.Values steps with
    | none => rfl
    | some a =>
      simp only [Option.map_some']
      rw [ih (st ++ a)]
      cases concatOver (fun r => r.Values steps) rest with
      | none => rfl
      | some b => simp

theorem collectValuesInRange_eq (steps : Nat) (q : Range) (l : List Range) (st : List F64) :
    collectValuesInRange steps q l st =
      (concatOver (fun r => r.ValuesInRange steps q) l).map (fun out => st ++ out) := by
  induction l generalizing st with
  | nil => simp [collectValuesInRange, concatOver]
  | cons r rest ih =>
    unfold collectValuesInRange concatOver
    rw [eachValueInRange_append]
    cases r.ValuesInRange steps q with
    | none => rfl
    | some a =>
      simp only [Option.map_some']
      rw [ih (st ++ a)]
      cases concatOver (fun r => r.ValuesInRange steps q) rest with
      | none => rfl
      | some b => simp

theorem merge_of_isMerged {c : RangeCollection} (h : c.IsMerged = true) :
    RangeCollection.Merge c = c := by
  unfold RangeCollection.Merge
  split_ifs <;> rfl

theorem merged_or_self (c : RangeCollection) :
    (if !c.IsMerged then RangeCollection.Merge c else c) = RangeCollection.Merge c := by
  cases h : c.IsMerged
  · rfl
  · simp [merge_of_isMerged h]

/-- C22: `c.Values()` is the concatenation, in order, of `r.Values()` for the ranges
`r` of `c.Merge()`, and `c.ValuesInRange(q)` is the concatenation, in order, of
`r.ValuesInRange(q)` for the ranges `r` of `c.Merge()`; with the same bound on the
steps of each loop, either both sides return or neither does. -/
theorem collection_values_eq_concat (steps : Nat) (c : RangeCollection) :
    RangeCollection.Values steps c =
      concatOver (fun r => r.Values steps) (RangeCollection.Merge c) ∧
    ∀ q, RangeCollection.ValuesInRange steps c q =
      concatOver (fun r => r.ValuesInRange steps q) (RangeCollection.Merge c) := by
  constructor
  · unfold RangeCollection.Values
    dsimp only
    rw [merged_or_self, collectValues_eq]
    cases concatOver (fun r => r.Values steps) (RangeCollection.Merge c) <;> simp
  · intro q
    unfold RangeCollection.ValuesInRange
    dsimp only
    rw [merged_or_self, collectValuesInRange_eq]
    cases concatOver (fun r => r.ValuesInRange steps q) (RangeCollection.Merge c) <;> simp

/-! ## The receiver after `Merge` -/

/-- C23 as stated fails at the collection (4, 6), (1, 5): after `Merge`, and after
`Values` or `ValuesInRange`, the slice it was called on holds (1, 5), (4, 6). -/
theorem merge_reorders_receiver :
    RangeCollection.afterMerge [⟨.fin 4, .fin 6⟩, ⟨.fin 1, .fin 5⟩] =
      [⟨.fin 1, .fin 5⟩, ⟨.fin 4, .fin 6⟩] ∧
    RangeCollection.afterValues [⟨.fin 4, .fin 6⟩, ⟨.fin 1, .fin 5⟩] =
      [⟨.fin 1, .fin 5⟩, ⟨.fin 4, .fin 6⟩] ∧
    RangeCollection.afterMerge [⟨.fin 4, .fin 6⟩, ⟨.fin 1, .fin 5⟩] ≠
      [⟨.fin 4, .fin 6⟩, ⟨.fin 1, .fin 5⟩] := by
  decide

theorem sortIsSorted_of_pairwise_rle (l : RangeCollection) (h : l.Pairwise Range.rle) :
    sortIsSorted l = true := by
  rw [sortIsSorted_iff_chain]
  exact (List.Pairwise.chain' h).imp (fun _ _ hab => not_less_of_rle hab)

theorem afterMerge_perm (c : RangeCollection) : c.afterMerge.Perm c := by
  unfold RangeCollection.afterMerge
  split_ifs
  · exact List.Perm.refl c
  · exact List.Perm.refl c
  · exact sortSort_perm c

theorem afterMerge_of_isMerged {c : RangeCollection} (h : c.IsMerged = true) :
    c.afterMerge = c := by
  unfold RangeCollection.afterMerge
  split_ifs <;> rfl

theorem afterValues_eq (c : RangeCollection) : c.afterValues = c.afterMerge := by
  unfold RangeCollection.afterValues
  cases h : c.IsMerged
  · rfl
  · simp [afterMerge_of_isMerged h]

theorem afterMerge_sorted (c : RangeCollection) (hc : ∀ r ∈ c, r.NoNaN) :
    sortIsSorted c.afterMerge = true := by
  unfold RangeCollection.afterMerge
  split_ifs with h0 h1
  · rw [List.length_eq_zero.mp h0]; rfl
  · rw [sortIsSorted_iff_chain]
    exact ((isMerged_iff c).mp h1).1
  · exact sortIsSorted_of_pairwise_rle _ (sortSort_sorted c hc)

/-- C23, amended: after `Merge`, and after `Values` or `ValuesInRange`, the
collection it was called on holds a permutation of the ranges it held before; it
is unchanged when it was empty or merged, and when no bound is a NaN it is in the
order of `Less`. -/
theorem merge_permutes_receiver (c : RangeCollection) :
    (c.afterMerge.Perm c ∧ c.afterValues.Perm c) ∧
    (c.length = 0 ∨ c.IsMerged = true → c.afterMerge = c ∧ c.afterValues = c) ∧
    ((∀ r ∈ c, r.Start ≠ .nan ∧ r.End ≠ .nan) →
      sortIsSorted c.afterMerge = true ∧ sortIsSorted c.afterValues = true) := by
  refine ⟨⟨afterMerge_perm c, ?_⟩, ?_, ?_⟩
  · rw [afterValues_eq]
    exact afterMerge_perm c
  · intro h
    have hm : c.IsMerged = true := by
      rcases h with h | h
      · rw [List.length_eq_zero.mp h]; rfl
      · exact h
    rw [afterValues_eq, afterMerge_of_isMerged hm]
    exact ⟨rfl, rfl⟩
  · intro hc
    rw [afterValues_eq]
    exact ⟨afterMerge_sorted c hc, afterMerge_sorted c hc⟩

/-- The collection "1:5", "7:", "4:6" is sorted in place by `Merge`. -/
theorem merge_permutes_receiver_witness :
    sortIsSorted sampleCollection.afterMerge = true ∧
    sortIsSorted sampleCollection.afterValues = true :=
  (merge_permutes_receiver sampleCollection).2.2 (by decide)

/-! ## `valuesInRange` and the clamped window -/

theorem f64_eq_ninf_of_le {x y : F64} (h : x.le y = true) (hy : y = .ninf) : x = .ninf := by
  subst hy
  cases x <;> simp_all [F64.le]

theorem f64_eq_pinf_of_le {x y : F64} (h : x.le y = true) (hx : x = .pinf) : y = .pinf := by
  subst hx
  cases y <;> simp_all [F64.le]

theorem f64_eq_false_iff {x y : F64} : x.eq y = false ↔ ¬(x = y ∧ x ≠ .nan) := by
  rw [← f64_eq_iff]
  cases x.eq y <;> simp

/-- Whenever `Overlap` is true, `valuesInRange` is `values` on the window from
`math.Max` of the starts to `math.Min` of the ends. -/
theorem valuesInRange_of_overlap (steps : Nat) (r other : Range) (fn : F64 → F64)
    (hr : r.Start.le r.End = true) (ho : other.Start.le other.End = true)
    (hov : r.Overlap other = true) :
    r.valuesInRange steps other fn =
      (⟨mathMax other.Start r.Start, mathMin other.End r.End⟩ : Range).values steps fn := by
  have hrs := (f64_le_ne_nan hr).1
  have hre := (f64_le_ne_nan hr).2
  have hos := (f64_le_ne_nan ho).1
  have hoe := (f64_le_ne_nan ho).2
  have hmin_o := mathMin_le_left hoe hre
  have hmax_o := le_mathMax_left hos hrs
  unfold Range.valuesInRange
  simp only [hov, Bool.not_true, Bool.false_eq_true, if_false, Range.Infinite, Range.values]
  by_cases os : other.Start.eq .ninf = true
  · have hos' := (f64_eq_iff.mp os).1
    have hs : mathMax other.Start r.Start = r.Start := by rw [hos', mathMax_ninf_left]
    by_cases oe : other.End.eq .pinf = true
    · have hoe' := (f64_eq_iff.mp oe).1
      have he : mathMin other.End r.End = r.End := by rw [hoe', mathMin_pinf_left]
      rw [hs, he]
      by_cases rs : r.Start.eq .ninf = true
      · by_cases re : r.End.eq .pinf = true
        · simp [os, oe, rs, re, (f64_eq_iff.mp re).1]
        · simp [os, oe, rs, re]
      · simp [os, oe, rs]
    · have hen : (mathMin other.End r.End).eq .pinf = false := by
        rw [f64_eq_false_iff]
        rintro ⟨h, _⟩
        exact oe (f64_eq_iff.mpr ⟨f64_eq_pinf_of_le hmin_o h, hoe⟩)
      rw [hs]
      by_cases rs : r.Start.eq .ninf = true
      · simp [os, oe, rs]
      · simp [os, oe, rs, hen]
  · have hsn : (mathMax other.Start r.Start).eq .ninf = false := by
      rw [f64_eq_false_iff]
      rintro ⟨h, _⟩
      exact os (f64_eq_iff.mpr ⟨f64_eq_ninf_of_le hmax_o h, hos⟩)
    by_cases oe : other.End.eq .pinf = true
    · have hoe' := (f64_eq_iff.mp oe).1
      have he : mathMin other.End r.End = r.End := by rw [hoe', mathMin_pinf_left]
      rw [he]
      by_cases re : r.End.eq .pinf = true
      · simp [os, oe, re, hsn]
      · simp [os, oe, re, hsn]
    · have hen : (mathMin other.End r.End).eq .pinf = false := by
        rw [f64_eq_false_iff]
        rintro ⟨h, _⟩
        exact oe (f64_eq_iff.mpr ⟨f64_eq_pinf_of_le hmin_o h, hoe⟩)
      simp [os, oe, hsn, hen]

theorem values_of_not_le (steps : Nat) (s e : F64) (fn : F64 → F64) (hs : s ≠ .nan)
    (he : e ≠ .nan) (h : s.le e = false) :
    (⟨s, e⟩ : Range).values (steps + 1) fn = some [] := by
  have h1 : s.eq .ninf = false := by
    rw [f64_eq_false_iff]
    rintro ⟨h', _⟩
    rw [h', f64_ninf_le he] at h
    cases h
  have h2 : e.eq .pinf = false := by
    rw [f64_eq_false_iff]
    rintro ⟨h', _⟩
    rw [h', f64_le_pinf hs] at h
    cases h
  simp only [Range.values, h1, h2, Bool.false_eq_true, if_false]
  exact valuesLoop_of_not_le fn h steps

theorem clampedWindow_eq (r other : Range) (hr : r.Start.le r.End = true)
    (ho : other.Start.le other.End = true) :
    clampedWindow r other = ⟨mathMax other.Start r.Start, mathMin other.End r.End⟩ := by
  have hrs := (f64_le_ne_nan hr).1
  have hre := (f64_le_ne_nan hr).2
  have hos := (f64_le_ne_nan ho).1
  have hoe := (f64_le_ne_nan ho).2
  unfold clampedWindow
  congr 1
  · cases h : r.Start.le other.Start
    · rw [mathMax_of_le (f64_le_of_lt (f64_lt_of_not_le hrs hos h))]
      simp
    · rw [mathMax_comm, mathMax_of_le h]
      simp
  · cases h : r.End.le other.End
    · rw [mathMin_of_le (f64_le_of_lt (f64_lt_of_not_le hre hoe h))]
      simp
    · rw [mathMin_comm, mathMin_of_le h]
      simp

/-- C24: for two ranges with `Start <= End`, let `s` be the larger of the two starts
and `e` the smaller of the two ends.  If `s <= e`, `r.ValuesInRange(other)` is the
`Values()` of the range (s, e); if `s > e`, `r.ValuesInRange(other)` is empty. -/
theorem valuesInRange_eq_values_of_window (r other : Range)
    (hr : r.Start.le r.End = true) (ho : other.Start.le other.End = true) :
    ((clampedWindow r other).Start.le (clampedWindow r other).End = true →
      ∀ steps, r.ValuesInRange steps other = (clampedWindow r other).Values steps) ∧
    ((clampedWindow r other).Start.gt (clampedWindow r other).End = true →
      ∀ steps, r.ValuesInRange (steps + 1) other = some []) := by
  have hrs := (f64_le_ne_nan hr).1
  have hre := (f64_le_ne_nan hr).2
  have hos := (f64_le_ne_nan ho).1
  have hoe := (f64_le_ne_nan ho).2
  rw [clampedWindow_eq r other hr ho]
  dsimp only
  -- without `Overlap` the window is empty
  have hno : r.Overlap other = false →
      (mathMax other.Start r.Start).le (mathMin other.End r.End) = false := by
    intro hov
    rw [overlap_eq] at hov
    cases h : (mathMax other.Start r.Start).le (mathMin other.End r.End)
    · rfl
    · have := f64_le_trans (f64_le_trans (le_mathMax_left hos hrs) h)
        (mathMin_le_right hoe hre)
      rw [this] at hov
      cases hov
  constructor
  · intro hle steps
    cases hov : r.Overlap other
    · rw [hno hov] at hle
      cases hle
    · exact valuesInRange_of_overlap steps r other _ hr ho hov
  · intro hgt steps
    have hle := f64_not_le_of_lt hgt
    cases hov : r.Overlap other
    · simp [Range.ValuesInRange, Range.valuesInRange, hov]
    · unfold Range.ValuesInRange
      rw [valuesInRange_of_overlap (steps + 1) r other _ hr ho hov]
      exact values_of_not_le steps _ _ _ (mathMax_ne_nan hos hrs) (mathMin_ne_nan hoe hre) hle

/-- The range (4, +Inf) of `TestInfiniteEndRangeValuesInRange` within (2, 5), where
the window is (4, 5), and within (-Inf, 3), where the window is empty. -/
theorem valuesInRange_eq_values_of_window_witness :
    (∀ steps, (⟨.fin 4, .pinf⟩ : Range).ValuesInRange steps ⟨.fin 2, .fin 5⟩ =
      (clampedWindow ⟨.fin 4, .pinf⟩ ⟨.fin 2, .fin 5⟩).Values steps) ∧
    (∀ steps, (⟨.fin 4, .pinf⟩ : Range).ValuesInRange (steps + 1) ⟨.ninf, .fin 3⟩ = some []) :=
  ⟨(valuesInRange_eq_values_of_window ⟨.fin 4, .pinf⟩ ⟨.fin 2, .fin 5⟩
      (by decide) (by decide)).1 (by decide),
    (valuesInRange_eq_values_of_window ⟨.fin 4, .pinf⟩ ⟨.ninf, .fin 3⟩
      (by decide) (by decide)).2 (by decide)⟩

/-! ## The order of the values of a collection -/

theorem mathMin_eq_or (x y : F64) : mathMin x y = x ∨ mathMin x y = y := by
  cases x <;> cases y <;>
    first
    | exact Or.inl rfl
    | exact Or.inr rfl
    | (simp only [mathMin]; split_ifs; exacts [Or.inl rfl, Or.inr rfl])

theorem range_merge_start (P : F64 → Prop) (a b : Range) (ha : P a.Start) (hb : P b.Start) :
    P (a.Merge b).1.Start := by
  cases ho : a.Overlap b
  · rw [range_merge_of_not_overlap ho]
    exact ha
  · rw [range_merge_of_overlap ho]
    rcases mathMin_eq_or a.Start b.Start with h | h <;> simp only [h] <;> assumption

theorem mergeLoop_start (P : F64 → Prop) (rest : List Range) (acc : List Range) (cur : Range)
    (hacc : ∀ r ∈ acc, P r.Start) (hcur : P cur.Start) (hrest : ∀ r ∈ rest, P r.Start) :
    ∀ r ∈ mergeLoop acc cur rest, P r.Start := by
  induction rest generalizing acc cur with
  | nil =>
    intro r hr
    rcases List.mem_append.mp hr with h | h
    · exact hacc r h
    · rw [List.mem_singleton.mp h]; exact hcur
  | cons x rest ih =>
    have hx := hrest x (List.mem_cons_self _ _)
    have hrest' : ∀ r ∈ rest, P r.Start := fun r hr => hrest r (List.mem_cons_of_mem _ hr)
    have hm := range_merge_start P cur x hcur hx
    unfold mergeLoop
    by_cases ho : cur.Overlap x = true
    · rw [if_pos ho]
      dsimp only
      split_ifs
      · intro r hr
        rcases List.mem_append.mp hr with h | h
        · exact hacc r h
        · rw [List.mem_singleton.mp h]; exact hm
      · exact ih acc _ hacc hm hrest'
    · rw [if_neg ho]
      refine ih (acc ++ [cur]) x ?_ hx hrest'
      intro r hr
      rcases List.mem_append.mp hr with h | h
      · exact hacc r h
      · rw [List.mem_singleton.mp h]; exact hcur

theorem merge_start (P : F64 → Prop) (c : RangeCollection) (hc : ∀ r ∈ c, P r.Start) :
    ∀ r ∈ RangeCollection.Merge c, P r.Start := by
  unfold RangeCollection.Merge
  split_ifs
  · exact hc
  · exact hc
  · have hs : ∀ r ∈ sortSort c, P r.Start := fun r hr => hc r ((sortSort_perm c).subset hr)
    cases hl : sortSort c with
    | nil => intro r hr; cases hr
    | cons a rest =>
      rw [hl] at hs
      simp only [mergeSorted]
      split_ifs
      · intro r hr
        rw [List.mem_singleton.mp hr]
        exact hs a (List.mem_cons_self _ _)
      · exact mergeLoop_start P rest [] a (fun r hr => by cases hr)
          (hs a (List.mem_cons_self _ _)) (fun r hr => hs r (List.mem_cons_of_mem _ hr))

theorem valuesLoop_sorted {stop : F64} (steps : Nat) (i : F64) (hi : i.IsFloat64)
    (out : List F64) (h : valuesLoop (fun v => v) stop steps i = some out) :
    out.Pairwise (fun a b => a.le b = true) := by
  induction steps generalizing i out with
  | zero => cases h
  | succ n ih =>
    unfold valuesLoop at h
    split_ifs at h with hle
    · cases hrest : valuesLoop (fun v => v) stop n i.inc with
      | none => rw [hrest] at h; cases h
      | some rest =>
        rw [hrest] at h
        have hout : out = i :: rest := by
          simp only [Option.map_some', Option.some.injEq] at h
          exact h.symm
        rw [hout, List.pairwise_cons]
        refine ⟨?_, ih i.inc (isFloat64_inc hi) rest hrest⟩
        intro v hv
        exact f64_le_trans (le_inc hi (f64_le_ne_nan hle).1)
          (valuesLoop_bounds n i.inc (isFloat64_inc hi) rest hrest v hv).1
    · cases h
      exact List.Pairwise.nil

/-- The values of a range with `Start <= End` are in order, and each lies between
`Start` and `End`. -/
theorem range_values_sorted (steps : Nat) (r : Range) (hr : r.Start.le r.End = true)
    (hf : r.Start.IsFloat64) (out : List F64) (h : r.Values steps = some out) :
    out.Pairwise (fun a b => a.le b = true) ∧
      ∀ v ∈ out, r.Start.le v = true ∧ v.le r.End = true := by
  have hs := (f64_le_ne_nan hr).1
  have he := (f64_le_ne_nan hr).2
  unfold Range.Values Range.values at h
  split_ifs at h with h1 h2
  · have h1' := (f64_eq_iff.mp h1).1
    cases h
    rw [h1'] at hr ⊢
    refine ⟨?_, ?_⟩
    · simp [hr]
    · intro v hv
      simp only [List.mem_cons, List.mem_singleton, List.not_mem_nil, or_false] at hv
      rcases hv with hv | hv
      · rw [hv]; exact ⟨rfl, hr⟩
      · rw [hv]; exact ⟨hr, f64_le_refl he⟩
  · have h2' := (f64_eq_iff.mp h2).1
    cases h
    rw [h2'] at hr ⊢
    refine ⟨?_, ?_⟩
    · simp [hr]
    · intro v hv
      simp only [List.mem_cons, List.mem_singleton, List.not_mem_nil, or_false] at hv
      rcases hv with hv | hv
      · rw [hv]; exact ⟨f64_le_refl hs, hr⟩
      · rw [hv]; exact ⟨hr, rfl⟩
  · exact ⟨valuesLoop_sorted steps r.Start hf out h, valuesLoop_bounds steps r.Start hf out h⟩

/-- The concatenation of the values of ranges that lie one after the other is in
order. -/
theorem concatOver_values_sorted (steps : Nat) (l : List Range)
    (hv : ∀ r ∈ l, r.Start.le r.End = true) (hf : ∀ r ∈ l, r.Start.IsFloat64)
    (hp : l.Pairwise (fun a b => a.End.lt b.Start = true)) (out : List F64)
    (h : concatOver (fun r => r.Values steps) l = some out) :
    out.Pairwise (fun a b => a.le b = true) ∧
      ∀ v ∈ out, ∃ r ∈ l, r.Start.le v = true ∧ v.le r.End = true := by
  induction l generalizing out with
  | nil =>
    simp only [concatOver, Option.some.injEq] at h
    rw [← h]
    exact ⟨List.Pairwise.nil, fun v hv => by cases hv⟩
  | cons r rest ih =>
    unfold concatOver at h
    cases ha : r.Values steps with
    | none => rw [ha] at h; cases h
    | some a =>
      cases hb : concatOver (fun r => r.Values steps) rest with
      | none => rw [ha, hb] at h; cases h
      | some b =>
        rw [ha, hb] at h
        simp only [Option.some.injEq] at h
        have hra := range_values_sorted steps r (hv r (List.mem_cons_self _ _))
          (hf r (List.mem_cons_self _ _)) a ha
        have hrb := ih (fun x hx => hv x (List.mem_cons_of_mem _ hx))
          (fun x hx => hf x (List.mem_cons_of_mem _ hx)) (List.pairwise_cons.mp hp).2 b hb
        rw [← h]
        refine ⟨List.pairwise_append.mpr ⟨hra.1, hrb.1, ?_⟩, ?_⟩
        · intro x hx y hy
          obtain ⟨r2, hr2, hy1, _⟩ := hrb.2 y hy
          have hlt := (List.pairwise_cons.mp hp).1 r2 hr2
          exact f64_le_trans (hra.2 x hx).2 (f64_le_trans (f64_le_of_lt hlt) hy1)
        · intro v hv'
          rcases List.mem_append.mp hv' with hv' | hv'
          · exact ⟨r, List.mem_cons_self _ _, hra.2 v hv'⟩
          · obtain ⟨r2, hr2, h2⟩ := hrb.2 v hv'
            exact ⟨r2, List.mem_cons_of_mem _ hr2, h2⟩

theorem collection_values_eq (steps : Nat) (c : RangeCollection) :
    RangeCollection.Values steps c =
      concatOver (fun r => r.Values steps) (RangeCollection.Merge c) := by
  unfold RangeCollection.Values
  dsimp only
  rw [merged_or_self, collectValues_eq]
  cases concatOver (fun r => r.Values steps) (RangeCollection.Merge c) <;> simp

/-- The values of `sampleCollection`: those of (1, 6) and those of (7, +Inf). -/
theorem sampleCollection_values :
    RangeCollection.Values 7 sampleCollection =
      some [.fin 1, .fin 2, .fin 3, .fin 4, .fin 5, .fin 6, .fin 7, .pinf] := by
  have hm : RangeCollection.Merge sampleCollection = [⟨.fin 1, .fin 6⟩, ⟨.fin 7, .pinf⟩] := by
    decide
  have h1 : (⟨.fin 1, .fin 6⟩ : Range).Values 7 =
      some [.fin 1, .fin 2, .fin 3, .fin 4, .fin 5, .fin 6] := by
    have := values_cases.2.2 1 6 7 (by decide) (by decide) (by decide) (by decide)
    rw [show ((6 : ℤ) - 1 + 1).toNat = 6 from by decide] at this
    simp only [List.range_succ, List.range_zero] at this
    norm_num at this
    exact this
  have h2 : (⟨.fin 7, .pinf⟩ : Range).Values 7 = some [.fin 7, .pinf] :=
    values_cases.2.1 (.fin 7) 7 (by decide)
  rw [collection_values_eq, hm]
  simp [concatOver, h1, h2]

/-- C25: for every collection whose ranges all have `Start <= End` (and a float64
as `Start`, as every Go value of that type is), the list that `Values()` returns is
in non-decreasing order. -/
theorem collection_values_sorted (c : RangeCollection)
    (hv : ∀ r ∈ c, r.Start.le r.End = true) (hf : ∀ r ∈ c, r.Start.IsFloat64)
    (steps : Nat) (out : List F64) (h : RangeCollection.Values steps c = some out) :
    out.Pairwise (fun a b => a.le b = true) := by
  rw [collection_values_eq] at h
  have hmv := merge_valid c hv
  have hsep := (isMerged_iff_sep _).mp (merge_isMerged c (fun r hr => noNaN_of_valid (hv r hr)))
  exact (concatOver_values_sorted steps _ hmv (merge_start F64.IsFloat64 c hf)
    (pairwise_apart_of_chain_sep _ hmv hsep) out h).1

/-- The collection "1:5", "7:", "4:6" of `TestMergeInfiniteEndingRangeCollection`,
whose values are 1, 2, 3, 4, 5, 6, 7, +Inf. -/
theorem collection_values_sorted_witness :
    RangeCollection.Values 7 sampleCollection =
      some [.fin 1, .fin 2, .fin 3, .fin 4, .fin 5, .fin 6, .fin 7, .pinf] ∧
    [F64.fin 1, .fin 2, .fin 3, .fin 4, .fin 5, .fin 6, .fin 7, .pinf].Pairwise
      (fun a b => a.le b = true) :=
  ⟨sampleCollection_values,
    collection_values_sorted sampleCollection (by decide)
      (by
        intro r hr
        simp only [sampleCollection, List.mem_cons, List.mem_singleton, List.not_mem_nil,
          or_false] at hr
        rcases hr with hr | hr | hr <;> rw [hr]
        · simpa using isFloat64_intCast 1 (by norm_num)
        · simpa using isFloat64_intCast 7 (by norm_num)
        · simpa using isFloat64_intCast 4 (by norm_num))
      7 _ sampleCollection_values⟩

end Gorange
